import Mathlib

/-!
ExpensesTracker_CPlusPlus: a shallow embedding of `src/ExpenseTracker.cpp`.

The development models the `Expense` and `ExpenseTracker` classes.

Modelling conventions
* A C++ `char` is a Lean `Char`, a `std::string` is a Lean `String`; `tolower`
  and `isspace` are those of the "C" locale (the program never calls `setlocale`).
* `int` values are mathematical integers; the only place where the width matters,
  the range check of `operator>>(int&)`, is explicit.
* `time_t` is a 64-bit count of seconds, the local time zone is UTC without
  daylight saving, so `mktime` and `localtime` are the proleptic Gregorian
  calendar conversions.  As in C, `mktime` rewrites the `tm` it is given with the
  normalised fields.
* `double` is IEEE-754 binary64 with round-to-nearest-even; a finite value is
  stored as an integer count of `2^-1074` (the smallest subnormal), the two zeros
  are identified.
* `std::cerr` is the list of the messages written to it.
-/

/-! ## Characters and stream extraction -/

/-- The `isspace` classification of the "C" locale. -/
def isspace (c : Char) : Bool :=
  c == ' ' || c == '\t' || c == '\n' || c == '\x0b' || c == '\x0c' || c == '\r'

/-- The `isdigit` classification. -/
def isdigit (c : Char) : Bool :=
  48 ≤ c.toNat && c.toNat ≤ 57

/-- The `tolower` of the "C" locale: only `A`..`Z` are changed. -/
def tolower (c : Char) : Char :=
  if 65 ≤ c.toNat ∧ c.toNat ≤ 90 then Char.ofNat (c.toNat + 32) else c

/-- Value of a decimal digit character. -/
def digitVal (c : Char) : Nat :=
  c.toNat - 48

/-- Leading white space is skipped by every formatted extraction (`skipws`). -/
def skipws : List Char → List Char
  | [] => []
  | c :: cs => if isspace c then skipws cs else c :: cs

/-- The longest run of decimal digits at the front of the input, and what follows it. -/
def takeDigits : List Char → List Char × List Char
  | [] => ([], [])
  | c :: cs => if isdigit c then ((takeDigits cs).1.cons c, (takeDigits cs).2) else ([], c :: cs)

/-- Decimal value of a run of digits. -/
def digitsValue (ds : List Char) : Nat :=
  ds.foldl (fun acc c => 10 * acc + digitVal c) 0

/-- Largest `int`. -/
def INT_MAX : Int := 2147483647

/-- Smallest `int`. -/
def INT_MIN : Int := -2147483648

/-- The extraction `iss >> n` for `int n`: white space is skipped, an optional sign
and at least one decimal digit are read, and the stream fails (`none`) when no digit
is found or the value does not fit an `int`.  On success the value and the unread
input are returned. -/
def extractInt (s : List Char) : Option (Int × List Char) :=
  let s1 := skipws s
  let signed : Bool × List Char :=
    match s1 with
    | [] => (false, [])
    | c :: r => if c = '-' then (true, r) else if c = '+' then (false, r) else (false, c :: r)
  let ds := takeDigits signed.2
  if ds.1.isEmpty then none
  else
    let v : Int := if signed.1 then -(digitsValue ds.1 : Int) else (digitsValue ds.1 : Int)
    if v < INT_MIN ∨ INT_MAX < v then none else some (v, ds.2)

/-- The extraction `iss >> c` for `char c`: white space is skipped and one
character is read; the stream fails at the end of the input. -/
def extractChar (s : List Char) : Option (Char × List Char) :=
  match skipws s with
  | [] => none
  | c :: r => some (c, r)

/-! ## Calendar: `struct tm`, `mktime`, `localtime`, `strftime` -/

/-- The broken-down time `struct tm`. -/
structure tm where
  tm_sec : Int
  tm_min : Int
  tm_hour : Int
  tm_mday : Int
  tm_mon : Int
  tm_year : Int
  tm_wday : Int
  tm_yday : Int
  tm_isdst : Int
deriving DecidableEq, Repr

/-- The value-initialised `tm` written `{}` in the source. -/
def tm.zero : tm :=
  { tm_sec := 0, tm_min := 0, tm_hour := 0, tm_mday := 0, tm_mon := 0, tm_year := 0,
    tm_wday := 0, tm_yday := 0, tm_isdst := 0 }

/-- Gregorian leap-year rule. -/
def isLeap (y : Int) : Bool :=
  (y % 4 == 0 && y % 100 != 0) || y % 400 == 0

/-- Days from 1970-01-01 to January 1st of year `y`. -/
def daysBeforeYear (y : Int) : Int :=
  365 * (y - 1970) + ((y - 1) / 4 - (y - 1) / 100 + (y - 1) / 400) - 477

/-- Days from January 1st to the first day of month `mon` (0 = January). -/
def daysBeforeMonth (leap : Bool) (mon : Int) : Int :=
  let l : Int := if leap then 1 else 0
  if mon ≤ 0 then 0
  else if mon = 1 then 31
  else if mon = 2 then 59 + l
  else if mon = 3 then 90 + l
  else if mon = 4 then 120 + l
  else if mon = 5 then 151 + l
  else if mon = 6 then 181 + l
  else if mon = 7 then 212 + l
  else if mon = 8 then 243 + l
  else if mon = 9 then 273 + l
  else if mon = 10 then 304 + l
  else 334 + l

/-- The year containing day number `n` (days since 1970-01-01): an estimate from
the mean year length, corrected by at most one year. -/
def yearOfDays (n : Int) : Int :=
  let y := 1970 + (400 * n) / 146097
  if n < daysBeforeYear y then y - 1
  else if daysBeforeYear (y + 1) ≤ n then y + 1
  else y

/-- The month (0 = January) containing day `yday` of a year. -/
def monthOfYday (leap : Bool) (yday : Int) : Int :=
  if yday < daysBeforeMonth leap 1 then 0
  else if yday < daysBeforeMonth leap 2 then 1
  else if yday < daysBeforeMonth leap 3 then 2
  else if yday < daysBeforeMonth leap 4 then 3
  else if yday < daysBeforeMonth leap 5 then 4
  else if yday < daysBeforeMonth leap 6 then 5
  else if yday < daysBeforeMonth leap 7 then 6
  else if yday < daysBeforeMonth leap 8 then 7
  else if yday < daysBeforeMonth leap 9 then 8
  else if yday < daysBeforeMonth leap 10 then 9
  else if yday < daysBeforeMonth leap 11 then 10
  else 11

/-- The library call `localtime`: the broken-down form of a `time_t`. -/
def localtime (t : Int) : tm :=
  let days := t / 86400
  let rem := t % 86400
  let y := yearOfDays days
  let yday := days - daysBeforeYear y
  let mon := monthOfYday (isLeap y) yday
  { tm_sec := rem % 60
    tm_min := rem / 60 % 60
    tm_hour := rem / 3600
    tm_mday := yday - daysBeforeMonth (isLeap y) mon + 1
    tm_mon := mon
    tm_year := y - 1900
    tm_wday := (days + 4) % 7
    tm_yday := yday
    tm_isdst := 0 }

/-- The `time_t` denoted by the fields of a `tm`, whatever their ranges: months
beyond 0..11 carry into the year, days beyond the month carry into the following
months, and so on. -/
def timeOf (d : tm) : Int :=
  let y := 1900 + d.tm_year + d.tm_mon / 12
  let days := daysBeforeYear y + daysBeforeMonth (isLeap y) (d.tm_mon % 12) + (d.tm_mday - 1)
  days * 86400 + d.tm_hour * 3600 + d.tm_min * 60 + d.tm_sec

/-- The library call `mktime(&d)`: it returns the `time_t` of `d` and, as in C,
overwrites `d` with the normalised broken-down time (second component). -/
def mktime (d : tm) : Int × tm :=
  (timeOf d, localtime (timeOf d))

/-- Decimal digits of a natural number, most significant first. -/
def natDigits : Nat → Nat → List Char
  | 0, _ => []
  | fuel + 1, n =>
    if n < 10 then [Char.ofNat (48 + n)]
    else natDigits fuel (n / 10) ++ [Char.ofNat (48 + n % 10)]

/-- The conversion `%Y`: the year in decimal. -/
def fmtYear (y : Int) : List Char :=
  if y < 0 then '-' :: natDigits (y.natAbs + 1) y.natAbs else natDigits (y.natAbs + 1) y.natAbs

/-- The conversions `%m` and `%d`: a decimal number padded with a zero to two digits. -/
def fmtTwo (n : Int) : List Char :=
  if 0 ≤ n ∧ n < 10 then '0' :: natDigits 1 n.natAbs else fmtYear n

/-- The call `strftime(buffer, max, "%Y-%m-%d", &d)`: the text is produced when it
fits the buffer together with its terminating NUL, and nothing usable is produced
otherwise (`none`). -/
def strftime (max : Nat) (d : tm) : Option String :=
  let out := fmtYear (d.tm_year + 1900) ++ '-' :: fmtTwo (d.tm_mon + 1) ++ '-' :: fmtTwo d.tm_mday
  if out.length + 1 ≤ max then some (String.mk out) else none

set_option exponentiation.threshold 5000

/-! ## `double` -/

/-- An IEEE-754 binary64 value: a NaN, an infinity, or a finite value given as an
integer count of `2^-1074`.  Every finite `double` is such a count `n` with
`|n| < 2^2098` whose binary expansion has at most 53 significant bits. -/
inductive Double where
  | nan : Double
  | inf (negative : Bool) : Double
  | fin (units : Int) : Double
deriving DecidableEq, Repr

/-- Binary search for the bit length: `bitLenAux k n` is the number of binary
digits of `n` when `n < 2^(2^k)`. -/
def bitLenAux : Nat → Nat → Nat
  | 0, n => if n = 0 then 0 else 1
  | k + 1, n =>
    if 2 ^ (2 ^ k) ≤ n then 2 ^ k + bitLenAux k (n / 2 ^ (2 ^ k)) else bitLenAux k n

/-- Number of binary digits of `n`, for `n < 2^4096` (every sum of two finite
`double`s, counted in units of `2^-1074`, is below `2^2099`). -/
def bitLength (n : Nat) : Nat :=
  bitLenAux 12 n

/-- Round the ratio `N / D` to the nearest natural number that has at most 53
significant bits, ties going to the even significand. -/
def roundRatio (N D : Nat) : Nat :=
  let s := bitLength (N / D) - 53
  let D1 := D * 2 ^ s
  let q := N / D1
  let r := N % D1
  let q1 := if 2 * r < D1 then q else if D1 < 2 * r then q + 1 else if q % 2 = 0 then q else q + 1
  q1 * 2 ^ s

/-- The `double` nearest to `N / D` counts of `2^-1074`; results of magnitude
`2^1024` or more overflow to an infinity. -/
def Double.round (N : Int) (D : Nat) : Double :=
  let n := roundRatio N.natAbs D
  if 2 ^ 2098 ≤ n then Double.inf (decide (N < 0))
  else Double.fin (if N < 0 then -(n : Int) else (n : Int))

/-- The `double` nearest to the rational `n / d`, as a decimal literal of the
source denotes it. -/
def Double.ofRatio (n : Int) (d : Nat) : Double :=
  Double.round (n * ((2 ^ 1074 : Nat) : Int)) d

/-- The literal `0.0`. -/
def Double.zero : Double := Double.fin 0

/-- Addition of `double`s. -/
def Double.add : Double → Double → Double
  | Double.nan, _ => Double.nan
  | _, Double.nan => Double.nan
  | Double.inf a, Double.inf b => if a = b then Double.inf a else Double.nan
  | Double.inf a, Double.fin _ => Double.inf a
  | Double.fin _, Double.inf b => Double.inf b
  | Double.fin a, Double.fin b => Double.round (a + b) 1

/-- The comparison `a <= b` of `double`s; it is false when either side is a NaN. -/
def Double.le : Double → Double → Bool
  | Double.nan, _ => false
  | _, Double.nan => false
  | Double.inf a, Double.inf b => a || !b
  | Double.inf a, Double.fin _ => a
  | Double.fin _, Double.inf b => !b
  | Double.fin a, Double.fin b => decide (a ≤ b)

/-- The comparison `a < b` of `double`s; it is false when either side is a NaN. -/
def Double.lt : Double → Double → Bool
  | Double.nan, _ => false
  | _, Double.nan => false
  | Double.inf a, Double.inf b => a && !b
  | Double.inf a, Double.fin _ => a
  | Double.fin _, Double.inf b => !b
  | Double.fin a, Double.fin b => decide (a < b)

/-! ## `class Expense` -/

/-- The class `Expense`. -/
structure Expense where
  date : tm
  amount : Double
  category : String
  description : String
deriving DecidableEq, Repr

/-- The method `Expense::getFormattedDate`, with its 11-byte buffer. -/
def Expense.getFormattedDate (e : Expense) : Option String :=
  strftime 11 e.date

/-! ## `class ExpenseTracker` -/

/-- The class `ExpenseTracker`: its only member is the vector of expenses. -/
structure ExpenseTracker where
  expenses : List Expense
deriving DecidableEq, Repr

/-- What a member function leaves behind: the returned value, the text written to
`std::cerr`, and the tracker afterwards. -/
structure Outcome (α : Type) where
  value : α
  cerr : List String
  tracker : ExpenseTracker

/-- The nested struct `ExpenseTracker::Summary`; the `std::map` is the list of its
entries in ascending key order, as iteration over the map yields them. -/
structure Summary where
  categories : List (String × Double)
  total : Double
deriving DecidableEq, Repr

namespace ExpenseTracker

/-- The private helper `parseDate`: `some d` when it returns true with `date = d`. -/
def parseDate (dateStr : String) : Option tm :=
  match extractInt dateStr.data with
  | none => none
  | some (year, s1) =>
  match extractChar s1 with
  | none => none
  | some (_, s2) =>
  match extractInt s2 with
  | none => none
  | some (month, s3) =>
  match extractChar s3 with
  | none => none
  | some (delimiter, s4) =>
  match extractInt s4 with
  | none => none
  | some (day, _) =>
    if delimiter != '-' || year < 1900 || month < 1 || month > 12 || day < 1 || day > 31 then
      none
    else
      let date : tm :=
        { tm.zero with
          tm_year := year - 1900, tm_mon := month - 1, tm_mday := day,
          tm_hour := 0, tm_min := 0, tm_sec := 0, tm_isdst := -1 }
      let made := mktime date
      let temp := made.1
      let date := made.2
      if temp == -1 then none
      else
        let normalized := localtime temp
        if normalized.tm_year != date.tm_year || normalized.tm_mon != date.tm_mon
            || normalized.tm_mday != date.tm_mday then
          none
        else some date

/-- Message of `addExpense` for a rejected date. -/
def msgInvalidDate : String := "Invalid date format. Please use YYYY-MM-DD.\n"

/-- Message of `addExpense` for a rejected amount. -/
def msgInvalidAmount : String := "Amount must be positive.\n"

/-- Message of `addExpense` for an empty category. -/
def msgEmptyCategory : String := "Category cannot be empty.\n"

/-- Message of `filterExpenses` for an unusable start date. -/
def msgIgnoredStart : String := "Invalid start date format. Ignoring.\n"

/-- Message of `filterExpenses` for an unusable end date. -/
def msgIgnoredEnd : String := "Invalid end date format. Ignoring.\n"

/-- The member function `addExpense`. -/
def addExpense (self : ExpenseTracker) (dateStr : String) (amount : Double)
    (category : String) (description : String) : Outcome Bool :=
  match parseDate dateStr with
  | none => { value := false, cerr := [msgInvalidDate], tracker := self }
  | some date =>
    if Double.le amount Double.zero then
      { value := false, cerr := [msgInvalidAmount], tracker := self }
    else if category.isEmpty then
      { value := false, cerr := [msgEmptyCategory], tracker := self }
    else
      { value := true, cerr := [],
        tracker := { expenses := self.expenses ++ [Expense.mk date amount category description] } }

/-- The algorithm `std::equal(first1, last1, first2, pred)`; the second range is
never shorter than the first where the tracker calls it. -/
def equalBy (pred : Char → Char → Bool) : List Char → List Char → Bool
  | [], _ => true
  | _ :: _, [] => false
  | a :: l1, b :: l2 => pred a b && equalBy pred l1 l2

/-- The private helper `caseInsensitiveCompare`. -/
def caseInsensitiveCompare (str1 str2 : String) : Bool :=
  if str1.length != str2.length then false
  else equalBy (fun a b => tolower a == tolower b) str1.data str2.data

/-- One iteration of the loop of `filterExpenses` on `expense`: whether it is
included, the expense afterwards, and `startDate` and `endDate` afterwards (the
calls of `mktime` write to the `tm` they are given, the stored date included). -/
def filterStep (hasStartDate hasEndDate : Bool) (category : String)
    (startDate endDate : tm) (expense : Expense) : Bool × Expense × tm × tm :=
  let afterStart : Bool × Expense × tm :=
    if hasStartDate then
      let expTime := mktime expense.date
      let startTime := mktime startDate
      (if expTime.1 < startTime.1 then false else true,
        { expense with date := expTime.2 }, startTime.2)
    else (true, expense, startDate)
  let afterEnd : Bool × Expense × tm :=
    if afterStart.1 && hasEndDate then
      let expTime := mktime afterStart.2.1.date
      let endTime := mktime endDate
      (if expTime.1 > endTime.1 then false else afterStart.1,
        { afterStart.2.1 with date := expTime.2 }, endTime.2)
    else (afterStart.1, afterStart.2.1, endDate)
  let included : Bool :=
    if afterEnd.1 && !category.isEmpty then
      if !caseInsensitiveCompare afterEnd.2.1.category category then false else afterEnd.1
    else afterEnd.1
  (included, afterEnd.2.1, afterStart.2.2, afterEnd.2.2)

/-- The loop of `filterExpenses`: the vector `filtered` and the expenses of the
tracker after the loop. -/
def filterLoop (hasStartDate hasEndDate : Bool) (category : String) :
    tm → tm → List Expense → List Expense × List Expense
  | _, _, [] => ([], [])
  | startDate, endDate, expense :: rest =>
    let r := filterStep hasStartDate hasEndDate category startDate endDate expense
    let tail := filterLoop hasStartDate hasEndDate category r.2.2.1 r.2.2.2 rest
    (if r.1 then r.2.1 :: tail.1 else tail.1, r.2.1 :: tail.2)

/-- The member function `filterExpenses`. -/
def filterExpenses (self : ExpenseTracker) (startDateStr endDateStr category : String) :
    Outcome (List Expense) :=
  let start : tm × Bool × List String :=
    if !startDateStr.isEmpty then
      match parseDate startDateStr with
      | some d => (d, true, [])
      | none => (tm.zero, false, [msgIgnoredStart])
    else (tm.zero, false, [])
  let stop : tm × Bool × List String :=
    if !endDateStr.isEmpty then
      match parseDate endDateStr with
      | some d => (d, true, [])
      | none => (tm.zero, false, [msgIgnoredEnd])
    else (tm.zero, false, [])
  let r := filterLoop start.2.1 stop.2.1 category start.1 stop.1 self.expenses
  { value := r.1, cerr := start.2.2 ++ stop.2.2, tracker := { expenses := r.2 } }

/-- The statement `categories[category] += amount` on the map: the entry is
created with value `0.0` when the key is new.  Keys are ordered by `operator<` of
`std::string`, the lexicographic order of their characters. -/
def mapAdd : List (String × Double) → String → Double → List (String × Double)
  | [], k, v => [(k, Double.add Double.zero v)]
  | (k1, v1) :: rest, k, v =>
    if k.data < k1.data then (k, Double.add Double.zero v) :: (k1, v1) :: rest
    else if k1.data < k.data then (k1, v1) :: mapAdd rest k v
    else (k1, Double.add v1 v) :: rest

/-- The loop of `getSummary`, from the summary accumulated so far. -/
def summaryLoop : Summary → List Expense → Summary
  | summary, [] => summary
  | summary, expense :: rest =>
    summaryLoop
      { categories := mapAdd summary.categories expense.category expense.amount
        total := Double.add summary.total expense.amount } rest

/-- The member function `getSummary`. -/
def getSummary (self : ExpenseTracker) : Summary :=
  summaryLoop { categories := [], total := Double.zero } self.expenses

/-- The member function `getAllExpenses`. -/
def getAllExpenses (self : ExpenseTracker) : List Expense :=
  self.expenses

end ExpenseTracker

/-! ## Vocabulary of the specification -/

/-- Number of days of month `m` (1 = January) in year `y`. -/
def daysInMonth (y m : Int) : Int :=
  if m = 2 then (if isLeap y then 29 else 28)
  else if m = 4 ∨ m = 6 ∨ m = 9 ∨ m = 11 then 30
  else 31

/-- A real Gregorian date with year at least 1900: the invariant of `CalendarDate`. -/
def realDate (y m d : Int) : Bool :=
  decide (1900 ≤ y) && decide (1 ≤ m) && decide (m ≤ 12) && decide (1 ≤ d)
    && decide (d ≤ daysInMonth y m)

/-- The year, month and day written by the ten characters of a `YYYY-MM-DD` text. -/
def ymdOfDigits (a b c d e f g h : Char) : Int × Int × Int :=
  ((digitsValue [a, b, c, d] : Int), (digitsValue [e, f] : Int), (digitsValue [g, h] : Int))

/-- A text of the zero-padded form `YYYY-MM-DD` that denotes a real Gregorian date
with year at least 1900. -/
def isCanonicalDate (s : String) : Bool :=
  match s.data with
  | [a, b, c, d, s1, e, f, s2, g, h] =>
    isdigit a && isdigit b && isdigit c && isdigit d && s1 == '-' && isdigit e && isdigit f
      && s2 == '-' && isdigit g && isdigit h
      && realDate (ymdOfDigits a b c d e f g h).1 (ymdOfDigits a b c d e f g h).2.1
        (ymdOfDigits a b c d e f g h).2.2
  | _ => false

/-- Calendar order of two dates: year, then month, then day. -/
def dateLE (a b : tm) : Bool :=
  decide (a.tm_year < b.tm_year) ||
    (decide (a.tm_year = b.tm_year) &&
      (decide (a.tm_mon < b.tm_mon) ||
        (decide (a.tm_mon = b.tm_mon) && decide (a.tm_mday ≤ b.tm_mday))))

/-- The sum of the amounts of a sequence of expenses, accumulated from `0.0` in the
order of the sequence. -/
def sumAmounts (l : List Expense) : Double :=
  l.foldl (fun acc e => Double.add acc e.amount) Double.zero

/-- The sum of the entries of a summary map, accumulated from `0.0` in the order in
which iteration over the map yields them. -/
def sumEntries (m : List (String × Double)) : Double :=
  m.foldl (fun acc kv => Double.add acc kv.2) Double.zero

/-- The count of `2^-1074` of a finite `double` (0 for the others). -/
def Double.units : Double → Int
  | Double.fin n => n
  | _ => 0

/-- The calls a client can make on a tracker. -/
inductive Op where
  | add (dateStr : String) (amount : Double) (category description : String) : Op
  | filter (startDateStr endDateStr category : String) : Op
  | summary : Op
  | getAll : Op

/-- The tracker after one call. -/
def ExpenseTracker.step (t : ExpenseTracker) : Op → ExpenseTracker
  | Op.add dateStr amount category description =>
    (t.addExpense dateStr amount category description).tracker
  | Op.filter startDateStr endDateStr category =>
    (t.filterExpenses startDateStr endDateStr category).tracker
  | Op.summary => t
  | Op.getAll => t

/-- The tracker reached from the empty one by a sequence of calls. -/
def ExpenseTracker.run (ops : List Op) : ExpenseTracker :=
  ops.foldl ExpenseTracker.step { expenses := [] }

/-- The inclusion rule of the specification for `filter`: each bound that is present
and parseable constrains the date in calendar order, and a non-empty category text
must match case-insensitively. -/
def selected (startDateStr endDateStr category : String) (e : Expense) : Bool :=
  (startDateStr.isEmpty ||
    match ExpenseTracker.parseDate startDateStr with
    | none => true
    | some start => dateLE start e.date) &&
  (endDateStr.isEmpty ||
    match ExpenseTracker.parseDate endDateStr with
    | none => true
    | some stop => dateLE e.date stop) &&
  (category.isEmpty || ExpenseTracker.caseInsensitiveCompare e.category category)

/-- The ledger of the header comment of the source: its three expenses entered in
turn into an empty tracker. -/
def sampleTracker : ExpenseTracker :=
  ExpenseTracker.run
    [Op.add "2025-05-20" (Double.ofRatio 4590 100) "Groceries" "fruits and veggies",
     Op.add "2025-05-21" (Double.ofRatio 1000 100) "Transportation" "Bus fare",
     Op.add "2025-05-22" (Double.ofRatio 2550 100) "Dining Out" "Lunch with friends"]

/-- A ledger with one large and two small amounts: `1e16` in category `B`, then
`1.0` twice in category `A`. -/
def unevenTracker : ExpenseTracker :=
  ExpenseTracker.run
    [Op.add "2025-05-20" (Double.ofRatio 10000000000000000 1) "B" "",
     Op.add "2025-05-21" (Double.ofRatio 1 1) "A" "",
     Op.add "2025-05-22" (Double.ofRatio 1 1) "A" ""]

/-- Strict calendar order of two dates: the triple (year, month, day) of the first
is lexicographically smaller. -/
def dateLT (a b : tm) : Bool :=
  decide (a.tm_year < b.tm_year) ||
    (decide (a.tm_year = b.tm_year) &&
      (decide (a.tm_mon < b.tm_mon) ||
        (decide (a.tm_mon = b.tm_mon) && decide (a.tm_mday < b.tm_mday))))

/-- Two dates with the same triple (year, month, day). -/
def sameDay (a b : tm) : Bool :=
  decide (a.tm_year = b.tm_year) && decide (a.tm_mon = b.tm_mon)
    && decide (a.tm_mday = b.tm_mday)

/-- The timestamp `filterExpenses` compares: the value `mktime` returns for the date. -/
def timestamp (d : tm) : Int :=
  (mktime d).1

/-- The invariant the specification states for a stored expense: the amount is
greater than zero, the category is not empty, and the date is a real Gregorian date
with year at least 1900. -/
def validExpense (e : Expense) : Bool :=
  Double.lt Double.zero e.amount && !e.category.isEmpty
    && realDate (e.date.tm_year + 1900) (e.date.tm_mon + 1) e.date.tm_mday

/-- What `addExpense` checks before it stores an expense, with the date it stores:
the amount is not `<= 0`, the category is not empty, and the date is a real
Gregorian date with year at least 1900. -/
def storedOk (e : Expense) : Bool :=
  !Double.le e.amount Double.zero && !e.category.isEmpty
    && realDate (e.date.tm_year + 1900) (e.date.tm_mon + 1) e.date.tm_mday

/-- Two valid expenses whose categories differ only in letter case. -/
def caseTracker : ExpenseTracker :=
  ExpenseTracker.run
    [Op.add "2025-05-20" (Double.ofRatio 10 1) "Food" "lunch",
     Op.add "2025-05-21" (Double.ofRatio 5 1) "food" "snack"]

/-- A ledger reached by one call of `addExpense` with a NaN amount. -/
def nanTracker : ExpenseTracker :=
  ExpenseTracker.run [Op.add "2025-05-20" Double.nan "Food" ""]

/-! # Lemmas and theorems -/

/-! ## Calendar lemmas -/

theorem daysBeforeYear_succ (y : Int) :
    daysBeforeYear (y + 1) = daysBeforeYear y + (if isLeap y then 366 else 365) := by
  simp only [daysBeforeYear, isLeap, Bool.or_eq_true, Bool.and_eq_true, beq_iff_eq,
    bne_iff_ne, ne_eq]
  split_ifs <;> omega

theorem daysBeforeYear_mono {y z : Int} (h : y ≤ z) : daysBeforeYear y ≤ daysBeforeYear z := by
  rcases h.eq_or_lt with h | h
  · subst h; exact le_rfl
  · simp only [daysBeforeYear]; omega

theorem yearOfDays_spec (n : Int) :
    daysBeforeYear (yearOfDays n) ≤ n ∧ n < daysBeforeYear (yearOfDays n + 1) := by
  have h1 : daysBeforeYear (1970 + (400 * n) / 146097 - 1) ≤ n := by
    simp only [daysBeforeYear]; omega
  have h2 : n < daysBeforeYear (1970 + (400 * n) / 146097 + 1 + 1) := by
    simp only [daysBeforeYear]; omega
  simp only [yearOfDays]
  split_ifs with a b
  · refine ⟨h1, ?_⟩
    rw [sub_add_cancel]; exact a
  · exact ⟨b, h2⟩
  · exact ⟨not_lt.mp a, not_le.mp b⟩

theorem yearOfDays_unique {n y : Int} (h1 : daysBeforeYear y ≤ n)
    (h2 : n < daysBeforeYear (y + 1)) : yearOfDays n = y := by
  obtain ⟨a, b⟩ := yearOfDays_spec n
  by_contra hne
  rcases lt_or_gt_of_ne hne with h | h
  · have := daysBeforeYear_mono (show yearOfDays n + 1 ≤ y by omega)
    omega
  · have := daysBeforeYear_mono (show y + 1 ≤ yearOfDays n by omega)
    omega

/-- Length of the year in days. -/
theorem yday_range (n : Int) :
    0 ≤ n - daysBeforeYear (yearOfDays n) ∧
      n - daysBeforeYear (yearOfDays n) < (if isLeap (yearOfDays n) then 366 else 365) := by
  obtain ⟨a, b⟩ := yearOfDays_spec n
  rw [daysBeforeYear_succ] at b
  constructor <;> omega

theorem monthOfYday_spec_false (yd : Int) (h0 : 0 ≤ yd) (h1 : yd < 365) :
    0 ≤ monthOfYday false yd ∧ monthOfYday false yd ≤ 11 ∧
      daysBeforeMonth false (monthOfYday false yd) ≤ yd ∧
      (monthOfYday false yd < 11 → yd < daysBeforeMonth false (monthOfYday false yd + 1)) := by
  generalize hm : monthOfYday false yd = m
  unfold monthOfYday at hm
  have v0 : daysBeforeMonth false 0 = 0 := by decide
  have v1 : daysBeforeMonth false 1 = 31 := by decide
  have v2 : daysBeforeMonth false 2 = 59 := by decide
  have v3 : daysBeforeMonth false 3 = 90 := by decide
  have v4 : daysBeforeMonth false 4 = 120 := by decide
  have v5 : daysBeforeMonth false 5 = 151 := by decide
  have v6 : daysBeforeMonth false 6 = 181 := by decide
  have v7 : daysBeforeMonth false 7 = 212 := by decide
  have v8 : daysBeforeMonth false 8 = 243 := by decide
  have v9 : daysBeforeMonth false 9 = 273 := by decide
  have v10 : daysBeforeMonth false 10 = 304 := by decide
  have v11 : daysBeforeMonth false 11 = 334 := by decide
  rw [v1, v2, v3, v4, v5, v6, v7, v8, v9, v10, v11] at hm
  by_cases c0 : yd < 31
  · rw [if_pos c0] at hm; subst hm
    exact ⟨by omega, by omega, by rw [v0]; omega,
      fun _ => by rw [show (0 : Int) + 1 = 1 by norm_num, v1]; omega⟩
  rw [if_neg c0] at hm
  by_cases c1 : yd < 59
  · rw [if_pos c1] at hm; subst hm
    exact ⟨by omega, by omega, by rw [v1]; omega,
      fun _ => by rw [show (1 : Int) + 1 = 2 by norm_num, v2]; omega⟩
  rw [if_neg c1] at hm
  by_cases c2 : yd < 90
  · rw [if_pos c2] at hm; subst hm
    exact ⟨by omega, by omega, by rw [v2]; omega,
      fun _ => by rw [show (2 : Int) + 1 = 3 by norm_num, v3]; omega⟩
  rw [if_neg c2] at hm
  by_cases c3 : yd < 120
  · rw [if_pos c3] at hm; subst hm
    exact ⟨by omega, by omega, by rw [v3]; omega,
      fun _ => by rw [show (3 : Int) + 1 = 4 by norm_num, v4]; omega⟩
  rw [if_neg c3] at hm
  by_cases c4 : yd < 151
  · rw [if_pos c4] at hm; subst hm
    exact ⟨by omega, by omega, by rw [v4]; omega,
      fun _ => by rw [show (4 : Int) + 1 = 5 by norm_num, v5]; omega⟩
  rw [if_neg c4] at hm
  by_cases c5 : yd < 181
  · rw [if_pos c5] at hm; subst hm
    exact ⟨by omega, by omega, by rw [v5]; omega,
      fun _ => by rw [show (5 : Int) + 1 = 6 by norm_num, v6]; omega⟩
  rw [if_neg c5] at hm
  by_cases c6 : yd < 212
  · rw [if_pos c6] at hm; subst hm
    exact ⟨by omega, by omega, by rw [v6]; omega,
      fun _ => by rw [show (6 : Int) + 1 = 7 by norm_num, v7]; omega⟩
  rw [if_neg c6] at hm
  by_cases c7 : yd < 243
  · rw [if_pos c7] at hm; subst hm
    exact ⟨by omega, by omega, by rw [v7]; omega,
      fun _ => by rw [show (7 : Int) + 1 = 8 by norm_num, v8]; omega⟩
  rw [if_neg c7] at hm
  by_cases c8 : yd < 273
  · rw [if_pos c8] at hm; subst hm
    exact ⟨by omega, by omega, by rw [v8]; omega,
      fun _ => by rw [show (8 : Int) + 1 = 9 by norm_num, v9]; omega⟩
  rw [if_neg c8] at hm
  by_cases c9 : yd < 304
  · rw [if_pos c9] at hm; subst hm
    exact ⟨by omega, by omega, by rw [v9]; omega,
      fun _ => by rw [show (9 : Int) + 1 = 10 by norm_num, v10]; omega⟩
  rw [if_neg c9] at hm
  by_cases c10 : yd < 334
  · rw [if_pos c10] at hm; subst hm
    exact ⟨by omega, by omega, by rw [v10]; omega,
      fun _ => by rw [show (10 : Int) + 1 = 11 by norm_num, v11]; omega⟩
  rw [if_neg c10] at hm
  subst hm
  exact ⟨by omega, by omega, by rw [v11]; omega, fun h => absurd h (by omega)⟩

theorem monthOfYday_spec_true (yd : Int) (h0 : 0 ≤ yd) (h1 : yd < 366) :
    0 ≤ monthOfYday true yd ∧ monthOfYday true yd ≤ 11 ∧
      daysBeforeMonth true (monthOfYday true yd) ≤ yd ∧
      (monthOfYday true yd < 11 → yd < daysBeforeMonth true (monthOfYday true yd + 1)) := by
  generalize hm : monthOfYday true yd = m
  unfold monthOfYday at hm
  have v0 : daysBeforeMonth true 0 = 0 := by decide
  have v1 : daysBeforeMonth true 1 = 31 := by decide
  have v2 : daysBeforeMonth true 2 = 60 := by decide
  have v3 : daysBeforeMonth true 3 = 91 := by decide
  have v4 : daysBeforeMonth true 4 = 121 := by decide
  have v5 : daysBeforeMonth true 5 = 152 := by decide
  have v6 : daysBeforeMonth true 6 = 182 := by decide
  have v7 : daysBeforeMonth true 7 = 213 := by decide
  have v8 : daysBeforeMonth true 8 = 244 := by decide
  have v9 : daysBeforeMonth true 9 = 274 := by decide
  have v10 : daysBeforeMonth true 10 = 305 := by decide
  have v11 : daysBeforeMonth true 11 = 335 := by decide
  rw [v1, v2, v3, v4, v5, v6, v7, v8, v9, v10, v11] at hm
  by_cases c0 : yd < 31
  · rw [if_pos c0] at hm; subst hm
    exact ⟨by omega, by omega, by rw [v0]; omega,
      fun _ => by rw [show (0 : Int) + 1 = 1 by norm_num, v1]; omega⟩
  rw [if_neg c0] at hm
  by_cases c1 : yd < 60
  · rw [if_pos c1] at hm; subst hm
    exact ⟨by omega, by omega, by rw [v1]; omega,
      fun _ => by rw [show (1 : Int) + 1 = 2 by norm_num, v2]; omega⟩
  rw [if_neg c1] at hm
  by_cases c2 : yd < 91
  · rw [if_pos c2] at hm; subst hm
    exact ⟨by omega, by omega, by rw [v2]; omega,
      fun _ => by rw [show (2 : Int) + 1 = 3 by norm_num, v3]; omega⟩
  rw [if_neg c2] at hm
  by_cases c3 : yd < 121
  · rw [if_pos c3] at hm; subst hm
    exact ⟨by omega, by omega, by rw [v3]; omega,
      fun _ => by rw [show (3 : Int) + 1 = 4 by norm_num, v4]; omega⟩
  rw [if_neg c3] at hm
  by_cases c4 : yd < 152
  · rw [if_pos c4] at hm; subst hm
    exact ⟨by omega, by omega, by rw [v4]; omega,
      fun _ => by rw [show (4 : Int) + 1 = 5 by norm_num, v5]; omega⟩
  rw [if_neg c4] at hm
  by_cases c5 : yd < 182
  · rw [if_pos c5] at hm; subst hm
    exact ⟨by omega, by omega, by rw [v5]; omega,
      fun _ => by rw [show (5 : Int) + 1 = 6 by norm_num, v6]; omega⟩
  rw [if_neg c5] at hm
  by_cases c6 : yd < 213
  · rw [if_pos c6] at hm; subst hm
    exact ⟨by omega, by omega, by rw [v6]; omega,
      fun _ => by rw [show (6 : Int) + 1 = 7 by norm_num, v7]; omega⟩
  rw [if_neg c6] at hm
  by_cases c7 : yd < 244
  · rw [if_pos c7] at hm; subst hm
    exact ⟨by omega, by omega, by rw [v7]; omega,
      fun _ => by rw [show (7 : Int) + 1 = 8 by norm_num, v8]; omega⟩
  rw [if_neg c7] at hm
  by_cases c8 : yd < 274
  · rw [if_pos c8] at hm; subst hm
    exact ⟨by omega, by omega, by rw [v8]; omega,
      fun _ => by rw [show (8 : Int) + 1 = 9 by norm_num, v9]; omega⟩
  rw [if_neg c8] at hm
  by_cases c9 : yd < 305
  · rw [if_pos c9] at hm; subst hm
    exact ⟨by omega, by omega, by rw [v9]; omega,
      fun _ => by rw [show (9 : Int) + 1 = 10 by norm_num, v10]; omega⟩
  rw [if_neg c9] at hm
  by_cases c10 : yd < 335
  · rw [if_pos c10] at hm; subst hm
    exact ⟨by omega, by omega, by rw [v10]; omega,
      fun _ => by rw [show (10 : Int) + 1 = 11 by norm_num, v11]; omega⟩
  rw [if_neg c10] at hm
  subst hm
  exact ⟨by omega, by omega, by rw [v11]; omega, fun h => absurd h (by omega)⟩

theorem monthOfYday_spec (leap : Bool) (yd : Int) (h0 : 0 ≤ yd)
    (h1 : yd < (if leap then 366 else 365)) :
    0 ≤ monthOfYday leap yd ∧ monthOfYday leap yd ≤ 11 ∧
      daysBeforeMonth leap (monthOfYday leap yd) ≤ yd ∧
      (monthOfYday leap yd < 11 → yd < daysBeforeMonth leap (monthOfYday leap yd + 1)) := by
  cases leap
  · exact monthOfYday_spec_false yd h0 (by simpa using h1)
  · exact monthOfYday_spec_true yd h0 (by simpa using h1)

/-- The table of month starts stays within three days of the mean month length. -/
theorem daysBeforeMonth_bounds (leap : Bool) (j : Int) (h0 : 0 ≤ j) (h1 : j ≤ 11) :
    61 * j - 4 ≤ 2 * daysBeforeMonth leap j ∧ 2 * daysBeforeMonth leap j ≤ 61 * j + 3 ∧
      0 ≤ daysBeforeMonth leap j := by
  interval_cases j <;> cases leap <;> decide

theorem daysBeforeMonth_lt (leap : Bool) {j k : Int} (h0 : 0 ≤ j) (h : j < k) (h1 : k ≤ 11) :
    daysBeforeMonth leap j < daysBeforeMonth leap k := by
  have a := daysBeforeMonth_bounds leap j h0 (by omega)
  have b := daysBeforeMonth_bounds leap k (by omega) h1
  omega

theorem daysBeforeMonth_le (leap : Bool) {j k : Int} (h0 : 0 ≤ j) (h : j ≤ k) (h1 : k ≤ 11) :
    daysBeforeMonth leap j ≤ daysBeforeMonth leap k := by
  rcases h.eq_or_lt with e | e
  · subst e; exact le_rfl
  · exact (daysBeforeMonth_lt leap h0 e h1).le

theorem monthOfYday_unique (leap : Bool) {yd j : Int} (h0 : 0 ≤ j) (h1 : j ≤ 11)
    (y0 : 0 ≤ yd) (y1 : yd < (if leap then 366 else 365))
    (lo : daysBeforeMonth leap j ≤ yd) (hi : j < 11 → yd < daysBeforeMonth leap (j + 1)) :
    monthOfYday leap yd = j := by
  obtain ⟨a, b, c, d⟩ := monthOfYday_spec leap yd y0 y1
  by_contra hne
  rcases lt_or_gt_of_ne hne with h | h
  · have := daysBeforeMonth_le leap (show 0 ≤ monthOfYday leap yd + 1 by omega)
      (show monthOfYday leap yd + 1 ≤ j by omega) h1
    have := d (by omega)
    omega
  · have := daysBeforeMonth_le leap (show 0 ≤ j + 1 by omega)
      (show j + 1 ≤ monthOfYday leap yd by omega) b
    have := hi (by omega)
    omega

theorem timeOf_localtime (t : Int) : timeOf (localtime t) = t := by
  obtain ⟨h0, h1⟩ := yday_range (t / 86400)
  obtain ⟨m0, m1, _, _⟩ := monthOfYday_spec (isLeap (yearOfDays (t / 86400)))
    (t / 86400 - daysBeforeYear (yearOfDays (t / 86400))) h0 h1
  simp only [timeOf, localtime]
  have e1 : monthOfYday (isLeap (yearOfDays (t / 86400)))
      (t / 86400 - daysBeforeYear (yearOfDays (t / 86400))) / 12 = 0 := by omega
  have e2 : monthOfYday (isLeap (yearOfDays (t / 86400)))
      (t / 86400 - daysBeforeYear (yearOfDays (t / 86400))) % 12 =
      monthOfYday (isLeap (yearOfDays (t / 86400)))
      (t / 86400 - daysBeforeYear (yearOfDays (t / 86400))) := by omega
  rw [e1, e2]
  have e3 : 1900 + (yearOfDays (t / 86400) - 1900) + 0 = yearOfDays (t / 86400) := by omega
  rw [e3]
  omega

theorem mktime_localtime (t : Int) : mktime (localtime t) = (t, localtime t) := by
  simp only [mktime, timeOf_localtime]

/-! ## Dates that are real are fixed by `mktime` -/

theorem daysBeforeMonth_succ (y j : Int) (h0 : 0 ≤ j) (h1 : j ≤ 11) :
    daysBeforeMonth (isLeap y) j + daysInMonth y (j + 1) =
      if j = 11 then (if isLeap y then 366 else 365) else daysBeforeMonth (isLeap y) (j + 1) := by
  unfold daysInMonth
  generalize isLeap y = b
  interval_cases j <;> cases b <;> decide

/-- The `tm` that `parseDate` hands to `mktime`. -/
theorem timeOf_date (y m d w yd dst : Int) (hm0 : 1 ≤ m) (hm1 : m ≤ 12) :
    timeOf { tm_sec := 0, tm_min := 0, tm_hour := 0, tm_mday := d, tm_mon := m - 1,
             tm_year := y - 1900, tm_wday := w, tm_yday := yd, tm_isdst := dst } =
      86400 * (daysBeforeYear y + daysBeforeMonth (isLeap y) (m - 1) + (d - 1)) := by
  simp only [timeOf]
  have e1 : (m - 1) / 12 = 0 := by omega
  have e2 : (m - 1) % 12 = m - 1 := by omega
  rw [e1, e2]
  have e3 : 1900 + (y - 1900) + 0 = y := by omega
  rw [e3]
  omega

theorem localtime_date (y m d : Int) (hm0 : 1 ≤ m) (hm1 : m ≤ 12) (hd0 : 1 ≤ d)
    (hd1 : d ≤ daysInMonth y m) :
    let t := localtime (86400 * (daysBeforeYear y + daysBeforeMonth (isLeap y) (m - 1) + (d - 1)))
    t.tm_year = y - 1900 ∧ t.tm_mon = m - 1 ∧ t.tm_mday = d ∧ t.tm_hour = 0 ∧ t.tm_min = 0
      ∧ t.tm_sec = 0 := by
  have hs := daysBeforeMonth_succ y (m - 1) (by omega) (by omega)
  rw [sub_add_cancel] at hs
  have hb := daysBeforeMonth_bounds (isLeap y) (m - 1) (by omega) (by omega)
  have hle : daysBeforeMonth (isLeap y) (m - 1) + daysInMonth y m ≤
      (if isLeap y then 366 else 365) := by
    rw [hs]
    split_ifs with h1 h2
    · exact le_rfl
    · exact le_rfl
    · have := daysBeforeMonth_bounds (isLeap y) m (by omega) (by omega)
      omega
    · have := daysBeforeMonth_bounds (isLeap y) m (by omega) (by omega)
      omega
  have hg : 0 ≤ daysBeforeMonth (isLeap y) (m - 1) := by omega
  set yd := daysBeforeMonth (isLeap y) (m - 1) + (d - 1) with hyd
  have hy : yearOfDays (daysBeforeYear y + yd) = y := by
    apply yearOfDays_unique
    · omega
    · rw [daysBeforeYear_succ]
      split_ifs at hle ⊢ <;> omega
  have hmon : monthOfYday (isLeap y) yd = m - 1 := by
    apply monthOfYday_unique (isLeap y) (by omega) (by omega) (by omega)
    · split_ifs at hle ⊢ <;> omega
    · omega
    · intro hlt
      rw [sub_add_cancel]
      rw [if_neg (by omega)] at hs
      omega
  have hdiv : 86400 * (daysBeforeYear y + daysBeforeMonth (isLeap y) (m - 1) + (d - 1)) / 86400
      = daysBeforeYear y + yd := by omega
  have hmod : 86400 * (daysBeforeYear y + daysBeforeMonth (isLeap y) (m - 1) + (d - 1)) % 86400
      = 0 := by omega
  simp only [localtime, hdiv, hmod, hy, add_sub_cancel_left, hmon]
  refine ⟨trivial, trivial, by omega, by decide, by decide, by decide⟩

/-! ## Stream extraction lemmas -/

theorem isdigit_bounds {c : Char} (h : isdigit c = true) : 48 ≤ c.toNat ∧ c.toNat ≤ 57 := by
  simpa [isdigit] using h

theorem isspace_of_isdigit {c : Char} (h : isdigit c = true) : isspace c = false := by
  obtain ⟨h1, h2⟩ := isdigit_bounds h
  cases hs : isspace c
  · rfl
  · exfalso
    simp only [isspace, Bool.or_eq_true, beq_iff_eq] at hs
    rcases hs with ((((hs | hs) | hs) | hs) | hs) | hs <;> subst hs <;> revert h1 h2 <;> decide

theorem not_sign_of_isdigit {c : Char} (h : isdigit c = true) : c ≠ '-' ∧ c ≠ '+' := by
  obtain ⟨h1, h2⟩ := isdigit_bounds h
  constructor <;> intro hs <;> subst hs <;> revert h1 h2 <;> decide

theorem digit_char {c : Char} (h : isdigit c = true) : Char.ofNat (48 + digitVal c) = c := by
  obtain ⟨h1, h2⟩ := isdigit_bounds h
  have : 48 + digitVal c = c.toNat := by unfold digitVal; omega
  rw [this, Char.ofNat_toNat]

theorem digitVal_lt {c : Char} (h : isdigit c = true) : digitVal c < 10 := by
  obtain ⟨h1, h2⟩ := isdigit_bounds h
  unfold digitVal; omega

theorem skipws_cons_of_not_space {c : Char} (cs : List Char) (h : isspace c = false) :
    skipws (c :: cs) = c :: cs := by
  simp [skipws, h]

theorem takeDigits_append (ds rest : List Char) (hall : ∀ c ∈ ds, isdigit c = true)
    (hrest : ∀ c r, rest = c :: r → isdigit c = false) : takeDigits (ds ++ rest) = (ds, rest) := by
  induction ds with
  | nil =>
    cases rest with
    | nil => rfl
    | cons c r => simp [takeDigits, hrest c r rfl]
  | cons c cs ih =>
    have hc := hall c (List.mem_cons_self _ _)
    have := ih (fun x hx => hall x (List.mem_cons_of_mem _ hx))
    simp [takeDigits, hc, this]

theorem extractInt_digits (ds rest : List Char) (hne : ds ≠ [])
    (hall : ∀ c ∈ ds, isdigit c = true) (hrest : ∀ c r, rest = c :: r → isdigit c = false)
    (hv : (digitsValue ds : Int) ≤ INT_MAX) :
    extractInt (ds ++ rest) = some ((digitsValue ds : Int), rest) := by
  cases ds with
  | nil => exact absurd rfl hne
  | cons c cs =>
    have hc := hall c (List.mem_cons_self _ _)
    obtain ⟨n1, n2⟩ := not_sign_of_isdigit hc
    have htd := takeDigits_append (c :: cs) rest hall hrest
    unfold extractInt
    rw [List.cons_append, skipws_cons_of_not_space _ (isspace_of_isdigit hc)]
    rw [List.cons_append] at htd
    simp only [if_neg n1, if_neg n2, htd]
    have h0 : (0 : Int) ≤ (digitsValue (c :: cs) : Int) := Int.ofNat_nonneg _
    simp only [INT_MIN, INT_MAX] at *
    simp
    omega

theorem extractChar_cons {c : Char} (cs : List Char) (h : isspace c = false) :
    extractChar (c :: cs) = some (c, cs) := by
  simp [extractChar, skipws, h]

open ExpenseTracker

/-- What `parseDate` returns on three in-range numbers separated by any character
and a hyphen. -/
theorem parseDate_eq_of_extract {s : String} {year month day : Int} {c1 : Char}
    {s1 s2 s3 s4 s5 : List Char}
    (h1 : extractInt s.data = some (year, s1)) (h2 : extractChar s1 = some (c1, s2))
    (h3 : extractInt s2 = some (month, s3)) (h4 : extractChar s3 = some ('-', s4))
    (h5 : extractInt s4 = some (day, s5))
    (hy : 1900 ≤ year) (hm0 : 1 ≤ month) (hm1 : month ≤ 12) (hd0 : 1 ≤ day) (hd1 : day ≤ 31) :
    parseDate s = some (localtime (86400 *
      (daysBeforeYear year + daysBeforeMonth (isLeap year) (month - 1) + (day - 1)))) := by
  have hcond : (('-' : Char) != '-' || decide (year < 1900) || decide (month < 1)
      || decide (month > 12) || decide (day < 1) || decide (day > 31)) = false := by
    simp; omega
  simp only [parseDate, h1, h2, h3, h4, h5, hcond]
  simp only [mktime, tm.zero, timeOf_date _ _ _ _ _ _ hm0 hm1]
  have hne : (86400 * (daysBeforeYear year + daysBeforeMonth (isLeap year) (month - 1)
      + (day - 1)) == -1) = false := by
    simp only [beq_eq_false_iff_ne, ne_eq]; omega
  simp [hne]

/-! ## Formatting -/

theorem natDigits_step (fuel n : Nat) (h : 0 < fuel) :
    natDigits fuel n =
      if n < 10 then [Char.ofNat (48 + n)]
      else natDigits (fuel - 1) (n / 10) ++ [Char.ofNat (48 + n % 10)] := by
  cases fuel with
  | zero => exact absurd h (by decide)
  | succ k => rfl

theorem digitsValue_two (e f : Char) : digitsValue [e, f] = 10 * digitVal e + digitVal f := by
  simp [digitsValue]

theorem digitsValue_four (a b c d : Char) :
    digitsValue [a, b, c, d] = 1000 * digitVal a + 100 * digitVal b + 10 * digitVal c + digitVal d := by
  simp [digitsValue]; ring

theorem fmtTwo_digits {e f : Char} (he : isdigit e = true) (hf : isdigit f = true) :
    fmtTwo (digitsValue [e, f] : Int) = [e, f] := by
  have le := digitVal_lt he
  have lf := digitVal_lt hf
  rw [digitsValue_two]
  unfold fmtTwo fmtYear
  by_cases h : 10 * digitVal e + digitVal f < 10
  · have he0 : digitVal e = 0 := by omega
    have hc : (0 : Int) ≤ ((10 * digitVal e + digitVal f : Nat) : Int) ∧
        ((10 * digitVal e + digitVal f : Nat) : Int) < 10 := by omega
    rw [if_pos hc, Int.natAbs_ofNat, natDigits_step _ _ (by decide), if_pos h]
    have e1 : 10 * digitVal e + digitVal f = digitVal f := by omega
    rw [e1, digit_char hf]
    have e2 := digit_char he
    rw [he0] at e2
    rw [← e2]
  · have hc : ¬ ((0 : Int) ≤ ((10 * digitVal e + digitVal f : Nat) : Int) ∧
        ((10 * digitVal e + digitVal f : Nat) : Int) < 10) := by omega
    have hneg : ¬ (((10 * digitVal e + digitVal f : Nat) : Int) < 0) := by omega
    rw [if_neg hc, if_neg hneg, Int.natAbs_ofNat, natDigits_step _ _ (by omega), if_neg h,
      natDigits_step _ _ (by omega)]
    have e1 : (10 * digitVal e + digitVal f) / 10 = digitVal e := by omega
    have e2 : (10 * digitVal e + digitVal f) % 10 = digitVal f := by omega
    rw [e1, e2, if_pos le, digit_char he, digit_char hf]
    rfl

theorem fmtYear_digits {a b c d : Char} (ha : isdigit a = true) (hb : isdigit b = true)
    (hc : isdigit c = true) (hd : isdigit d = true) (hy : 1000 ≤ digitsValue [a, b, c, d]) :
    fmtYear (digitsValue [a, b, c, d] : Int) = [a, b, c, d] := by
  have la := digitVal_lt ha
  have lb := digitVal_lt hb
  have lc := digitVal_lt hc
  have ld := digitVal_lt hd
  rw [digitsValue_four] at hy ⊢
  generalize hn : 1000 * digitVal a + 100 * digitVal b + 10 * digitVal c + digitVal d = n at hy ⊢
  unfold fmtYear
  have hneg : ¬ ((n : Int) < 0) := by omega
  rw [if_neg hneg, Int.natAbs_ofNat, natDigits_step _ _ (by omega), if_neg (by omega),
    natDigits_step _ _ (by omega), if_neg (by omega), natDigits_step _ _ (by omega),
    if_neg (by omega), natDigits_step _ _ (by omega), if_pos (by omega)]
  have e1 : n / 10 / 10 / 10 = digitVal a := by omega
  have e2 : n / 10 / 10 % 10 = digitVal b := by omega
  have e3 : n / 10 % 10 = digitVal c := by omega
  have e4 : n % 10 = digitVal d := by omega
  rw [e1, e2, e3, e4, digit_char ha, digit_char hb, digit_char hc, digit_char hd]
  rfl

/-- Parsing a canonical date text and formatting the result gives the text back. -/
theorem parseDate_canonical {s : String} (h : isCanonicalDate s = true) :
    ∃ t, parseDate s = some t ∧ strftime 11 t = some s ∧
      realDate (t.tm_year + 1900) (t.tm_mon + 1) t.tm_mday = true := by
  obtain ⟨l⟩ := s
  unfold isCanonicalDate at h
  split at h
  case h_2 => exact absurd h (by decide)
  case h_1 a b c d c1 e f c2 g i heq =>
    simp only at heq
    subst heq
    simp only [Bool.and_eq_true, beq_iff_eq, ymdOfDigits] at h
    obtain ⟨⟨⟨⟨⟨⟨⟨⟨⟨⟨ha, hb⟩, hc⟩, hd⟩, h1⟩, he⟩, hf⟩, h2⟩, hg⟩, hi⟩, hreal⟩ := h
    subst h1 h2
    simp only [realDate, Bool.and_eq_true, decide_eq_true_eq] at hreal
    obtain ⟨⟨⟨⟨hy, hm0⟩, hm1⟩, hd0⟩, hd1⟩ := hreal
    have hdim : daysInMonth (digitsValue [a, b, c, d]) (digitsValue [e, f]) ≤ 31 := by
      unfold daysInMonth; split_ifs <;> decide
    have hdash : isspace '-' = false := by decide
    have x1 : extractInt [a, b, c, d, '-', e, f, '-', g, i] =
        some ((digitsValue [a, b, c, d] : Int), ['-', e, f, '-', g, i]) := by
      apply extractInt_digits [a, b, c, d] ['-', e, f, '-', g, i] (by simp)
      · intro x hx; simp at hx; rcases hx with r | r | r | r <;> subst r <;> assumption
      · intro x r hx; simp at hx; rw [← hx.1]; decide
      · have := digitVal_lt ha; have := digitVal_lt hb; have := digitVal_lt hc
        have := digitVal_lt hd
        rw [digitsValue_four]; simp only [INT_MAX]; omega
    have x3 : extractInt [e, f, '-', g, i] = some ((digitsValue [e, f] : Int), ['-', g, i]) := by
      apply extractInt_digits [e, f] ['-', g, i] (by simp)
      · intro x hx; simp at hx; rcases hx with r | r <;> subst r <;> assumption
      · intro x r hx; simp at hx; rw [← hx.1]; decide
      · simp only [INT_MAX]; omega
    have x5 : extractInt [g, i] = some ((digitsValue [g, i] : Int), []) := by
      have := extractInt_digits [g, i] [] (by simp)
        (by intro x hx; simp at hx; rcases hx with r | r <;> subst r <;> assumption)
        (by intro x r hx; simp at hx) (by simp only [INT_MAX]; omega)
      simpa using this
    have hp := parseDate_eq_of_extract (s := String.mk [a, b, c, d, '-', e, f, '-', g, i]) x1
      (extractChar_cons _ hdash) x3 (extractChar_cons _ hdash) x5 hy hm0 hm1 hd0 (by omega)
    obtain ⟨r1, r2, r3, -, -, -⟩ := localtime_date _ _ _ hm0 hm1 hd0 hd1
    refine ⟨_, hp, ?_, ?_⟩
    · unfold strftime
      simp only [r1, r2, r3, sub_add_cancel]
      rw [fmtYear_digits ha hb hc hd (by omega), fmtTwo_digits he hf, fmtTwo_digits hg hi]
      simp
    · simp only [r1, r2, r3, sub_add_cancel, realDate, Bool.and_eq_true, decide_eq_true_eq]
      exact ⟨⟨⟨⟨hy, hm0⟩, hm1⟩, hd0⟩, hd1⟩

/-- Every success of `parseDate` comes from three extracted numbers in range, the
second separator being a hyphen; the date returned is the normalised one. -/
theorem parseDate_eq_some {s : String} {d : tm} (h : parseDate s = some d) :
    ∃ (year month day : Int) (c1 : Char) (s1 s2 s3 s4 s5 : List Char),
      extractInt s.data = some (year, s1) ∧ extractChar s1 = some (c1, s2) ∧
      extractInt s2 = some (month, s3) ∧ extractChar s3 = some ('-', s4) ∧
      extractInt s4 = some (day, s5) ∧
      1900 ≤ year ∧ 1 ≤ month ∧ month ≤ 12 ∧ 1 ≤ day ∧ day ≤ 31 ∧
      d = localtime (86400 *
        (daysBeforeYear year + daysBeforeMonth (isLeap year) (month - 1) + (day - 1))) := by
  unfold parseDate at h
  cases h1 : extractInt s.data with
  | none => simp [h1] at h
  | some p1 =>
    obtain ⟨year, s1⟩ := p1
    simp only [h1] at h
    cases h2 : extractChar s1 with
    | none => simp [h2] at h
    | some p2 =>
      obtain ⟨c1, s2⟩ := p2
      simp only [h2] at h
      cases h3 : extractInt s2 with
      | none => simp [h3] at h
      | some p3 =>
        obtain ⟨month, s3⟩ := p3
        simp only [h3] at h
        cases h4 : extractChar s3 with
        | none => simp [h4] at h
        | some p4 =>
          obtain ⟨c2, s4⟩ := p4
          simp only [h4] at h
          cases h5 : extractInt s4 with
          | none => simp [h5] at h
          | some p5 =>
            obtain ⟨day, s5⟩ := p5
            simp only [h5] at h
            by_cases hc : (c2 != '-' || decide (year < 1900) || decide (month < 1)
                || decide (month > 12) || decide (day < 1) || decide (day > 31)) = true
            · rw [if_pos hc] at h
              exact absurd h (by simp)
            · have hc2 : c2 = '-' ∧ 1900 ≤ year ∧ 1 ≤ month ∧ month ≤ 12 ∧ 1 ≤ day ∧ day ≤ 31 := by
                simp only [Bool.or_eq_true, bne_iff_ne, ne_eq, decide_eq_true_eq, not_or,
                  not_not, not_lt] at hc
                obtain ⟨⟨⟨⟨⟨a, b⟩, c⟩, d⟩, e⟩, f⟩ := hc
                exact ⟨a, b, c, by omega, e, by omega⟩
              obtain ⟨e2, hy, hm0, hm1, hd0, hd1⟩ := hc2
              subst e2
              have hp := parseDate_eq_of_extract h1 h2 h3 h4 h5 hy hm0 hm1 hd0 hd1
              have h' : parseDate s = some d := by
                unfold parseDate
                simp only [h1, h2, h3, h4, h5]
                exact h
              rw [hp] at h'
              exact ⟨year, month, day, c1, s1, s2, s3, s4, s5, rfl, h2, h3, h4, h5, hy, hm0, hm1,
                hd0, hd1, (Option.some.inj h').symm⟩

/-! ## `addExpense` and `caseInsensitiveCompare` -/

theorem equalBy_iff (p : Char → Char → Bool) :
    ∀ (l1 l2 : List Char), l1.length = l2.length →
      (equalBy p l1 l2 = true ↔ ∀ i, i < l1.length → p (l1.getD i default) (l2.getD i default) = true)
  | [], l2, _ => by simp [equalBy]
  | a :: l1, [], h => by simp at h
  | a :: l1, b :: l2, h => by
    have ih := equalBy_iff p l1 l2 (by simpa using h)
    simp only [equalBy, Bool.and_eq_true, ih, List.length_cons]
    constructor
    · rintro ⟨h0, hr⟩ i hi
      cases i with
      | zero => simpa using h0
      | succ j => simpa using hr j (by omega)
    · intro hall
      refine ⟨by simpa using hall 0 (by omega), fun i hi => ?_⟩
      simpa using hall (i + 1) (by omega)

/-- The outcome of `addExpense` -/
theorem addExpense_outcome (t : ExpenseTracker) (dateStr : String) (amount : Double)
    (category description : String) :
    t.addExpense dateStr amount category description =
      match parseDate dateStr with
      | none => { value := false, cerr := [msgInvalidDate], tracker := t }
      | some date =>
        if Double.le amount Double.zero = true then
          { value := false, cerr := [msgInvalidAmount], tracker := t }
        else if category = "" then
          { value := false, cerr := [msgEmptyCategory], tracker := t }
        else
          { value := true, cerr := [],
            tracker := { expenses := t.expenses ++ [Expense.mk date amount category description] } } := by
  unfold addExpense
  cases parseDate dateStr with
  | none => rfl
  | some date =>
    simp only
    by_cases h1 : Double.le amount Double.zero = true
    · simp [h1]
    · have hc : category.isEmpty = true ↔ category = "" := by
        simp [String.isEmpty_iff]
      by_cases h2 : category = ""
      · subst h2
        simp only [h1, if_false]
        rfl
      · simp [h1, h2, hc]

theorem Double.le_zero_iff_not_pos {a : Double} (h : a ≠ Double.nan) :
    Double.le a Double.zero = !Double.lt Double.zero a := by
  cases a with
  | nan => exact absurd rfl h
  | inf b => cases b <;> rfl
  | fin n =>
    simp only [Double.le, Double.lt, Double.zero]
    by_cases hn : n ≤ 0
    · have : ¬ (0 < n) := by omega
      simp [hn, this]
    · have : 0 < n := by omega
      simp [hn, this]

/-- For every amount that is not a NaN, `addExpense` decides in the order date,
amount, category, and succeeds exactly when all three are acceptable. -/
theorem addExpense_order_of_ne_nan (t : ExpenseTracker) (dateStr : String) (amount : Double)
    (category description : String) (h : amount ≠ Double.nan) :
    (parseDate dateStr = none →
      (t.addExpense dateStr amount category description).value = false ∧
      (t.addExpense dateStr amount category description).cerr = [msgInvalidDate]) ∧
    (parseDate dateStr ≠ none → Double.lt Double.zero amount = false →
      (t.addExpense dateStr amount category description).value = false ∧
      (t.addExpense dateStr amount category description).cerr = [msgInvalidAmount]) ∧
    (parseDate dateStr ≠ none → Double.lt Double.zero amount = true → category = "" →
      (t.addExpense dateStr amount category description).value = false ∧
      (t.addExpense dateStr amount category description).cerr = [msgEmptyCategory]) ∧
    ((t.addExpense dateStr amount category description).value = true ↔
      parseDate dateStr ≠ none ∧ Double.lt Double.zero amount = true ∧ category ≠ "") := by
  rw [addExpense_outcome, Double.le_zero_iff_not_pos h]
  cases hp : parseDate dateStr with
  | none => simp
  | some date =>
    cases hl : Double.lt Double.zero amount <;> by_cases hc : category = "" <;> simp [hc]

/-! ## The summary map -/

theorem string_eq_of_not_lt {a b : String} (h1 : ¬ a.data < b.data) (h2 : ¬ b.data < a.data) :
    a = b := by
  rcases lt_trichotomy a.data b.data with h | h | h
  · exact absurd h h1
  · cases a; cases b; simp only at h; rw [h]
  · exact absurd h h2

theorem mapAdd_keys (k : String) (x : Double) :
    ∀ (m : List (String × Double)) (y : String × Double), y ∈ mapAdd m k x →
      y.1 = k ∨ ∃ z ∈ m, z.1 = y.1
  | [], y, hy => by
    simp only [mapAdd, List.mem_singleton] at hy
    left; rw [hy]
  | (k1, v1) :: rest, y, hy => by
    unfold mapAdd at hy
    split_ifs at hy with h1 h2
    · rcases List.mem_cons.mp hy with h | h
      · left; rw [h]
      · right; exact ⟨y, h, rfl⟩
    · rcases List.mem_cons.mp hy with h | h
      · right; exact ⟨(k1, v1), List.mem_cons_self _ _, by rw [h]⟩
      · rcases mapAdd_keys k x rest y h with h | ⟨z, hz, hzy⟩
        · left; exact h
        · right; exact ⟨z, List.mem_cons_of_mem _ hz, hzy⟩
    · rcases List.mem_cons.mp hy with h | h
      · right; exact ⟨(k1, v1), List.mem_cons_self _ _, by rw [h]⟩
      · right; exact ⟨y, List.mem_cons_of_mem _ h, rfl⟩

theorem mapAdd_sorted (k : String) (x : Double) :
    ∀ (m : List (String × Double)),
      m.Pairwise (fun a b => a.1.data < b.1.data) →
      (mapAdd m k x).Pairwise (fun a b => a.1.data < b.1.data)
  | [], _ => by simp [mapAdd]
  | (k1, v1) :: rest, hs => by
    obtain ⟨hhead, htail⟩ := List.pairwise_cons.mp hs
    unfold mapAdd
    split_ifs with h1 h2
    · refine List.pairwise_cons.mpr ⟨?_, hs⟩
      intro b hb
      rcases List.mem_cons.mp hb with h | h
      · rw [h]; exact h1
      · exact lt_trans h1 (hhead b h)
    · refine List.pairwise_cons.mpr ⟨?_, mapAdd_sorted k x rest htail⟩
      intro b hb
      rcases mapAdd_keys k x rest b hb with h | ⟨z, hz, hzb⟩
      · rw [h]; exact h2
      · rw [← hzb]; exact hhead z hz
    · exact List.pairwise_cons.mpr ⟨hhead, htail⟩

theorem mapAdd_mem (k : String) (x : Double) (c : String) (v : Double) :
    ∀ (m : List (String × Double)),
      m.Pairwise (fun a b => a.1.data < b.1.data) →
      ((c, v) ∈ mapAdd m k x ↔
        (c ≠ k ∧ (c, v) ∈ m) ∨
        (c = k ∧ ((∃ v0, (k, v0) ∈ m ∧ v = Double.add v0 x) ∨
                  ((∀ v0, (k, v0) ∉ m) ∧ v = Double.add Double.zero x))))
  | [], _ => by
    simp only [mapAdd, List.mem_singleton, Prod.mk.injEq, List.not_mem_nil, and_false,
      false_and, exists_false, not_false_eq_true, implies_true, true_and, false_or]
  | (k1, v1) :: rest, hs => by
    obtain ⟨hhead, htail⟩ := List.pairwise_cons.mp hs
    have ih := mapAdd_mem k x c v rest htail
    unfold mapAdd
    split_ifs with h1 h2
    · -- the key is new and goes first
      have hnot : ∀ v0, (k, v0) ∉ (k1, v1) :: rest := by
        intro v0 hm
        rcases List.mem_cons.mp hm with h | h
        · have : k = k1 := (Prod.mk.inj h).1
          rw [this] at h1; exact lt_irrefl _ h1
        · exact lt_irrefl _ (lt_trans h1 (hhead _ h))
      constructor
      · intro hm
        rcases List.mem_cons.mp hm with h | h
        · obtain ⟨e1, e2⟩ := Prod.mk.inj h
          exact Or.inr ⟨e1, Or.inr ⟨hnot, e2⟩⟩
        · by_cases hck : c = k
          · subst hck; exact absurd h (hnot v)
          · exact Or.inl ⟨hck, h⟩
      · rintro (⟨_, h⟩ | ⟨e1, (⟨v0, h, _⟩ | ⟨_, e2⟩)⟩)
        · exact List.mem_cons_of_mem _ h
        · exact absurd h (hnot v0)
        · rw [e1, e2]; exact List.mem_cons_self _ _
    · -- the key lies further on
      have hk1 : k1 ≠ k := by
        intro e; rw [e] at h2; exact lt_irrefl _ h2
      constructor
      · intro hm
        rcases List.mem_cons.mp hm with h | h
        · obtain ⟨e1, e2⟩ := Prod.mk.inj h
          refine Or.inl ⟨by rw [e1]; exact hk1, ?_⟩
          rw [e1, e2]; exact List.mem_cons_self _ _
        · rcases ih.mp h with ⟨a, b⟩ | ⟨a, (⟨v0, b, d⟩ | ⟨b, d⟩)⟩
          · exact Or.inl ⟨a, List.mem_cons_of_mem _ b⟩
          · exact Or.inr ⟨a, Or.inl ⟨v0, List.mem_cons_of_mem _ b, d⟩⟩
          · refine Or.inr ⟨a, Or.inr ⟨?_, d⟩⟩
            intro v0 hm0
            rcases List.mem_cons.mp hm0 with h0 | h0
            · exact hk1 (Prod.mk.inj h0).1.symm
            · exact b v0 h0
      · rintro (⟨a, h⟩ | ⟨a, (⟨v0, h, d⟩ | ⟨b, d⟩)⟩)
        · rcases List.mem_cons.mp h with h0 | h0
          · rw [h0]; exact List.mem_cons_self _ _
          · exact List.mem_cons_of_mem _ (ih.mpr (Or.inl ⟨a, h0⟩))
        · rcases List.mem_cons.mp h with h0 | h0
          · exact absurd (Prod.mk.inj h0).1.symm hk1
          · exact List.mem_cons_of_mem _ (ih.mpr (Or.inr ⟨a, Or.inl ⟨v0, h0, d⟩⟩))
        · refine List.mem_cons_of_mem _ (ih.mpr (Or.inr ⟨a, Or.inr ⟨?_, d⟩⟩))
          intro v0 h0
          exact b v0 (List.mem_cons_of_mem _ h0)
    · -- the key is the first one
      have hk : k = k1 := string_eq_of_not_lt h1 h2
      subst hk
      have hrest : ∀ v0, (k, v0) ∉ rest := by
        intro v0 hm
        exact lt_irrefl _ (hhead (k, v0) hm)
      constructor
      · intro hm
        rcases List.mem_cons.mp hm with h | h
        · obtain ⟨e1, e2⟩ := Prod.mk.inj h
          exact Or.inr ⟨e1, Or.inl ⟨v1, List.mem_cons_self _ _, e2⟩⟩
        · by_cases hck : c = k
          · subst hck; exact absurd h (hrest v)
          · exact Or.inl ⟨hck, List.mem_cons_of_mem _ h⟩
      · rintro (⟨a, h⟩ | ⟨a, (⟨v0, h, d⟩ | ⟨b, _⟩)⟩)
        · rcases List.mem_cons.mp h with h0 | h0
          · exact absurd (Prod.mk.inj h0).1 a
          · exact List.mem_cons_of_mem _ h0
        · rcases List.mem_cons.mp h with h0 | h0
          · rw [a, d, (Prod.mk.inj h0).2]; exact List.mem_cons_self _ _
          · exact absurd h0 (hrest v0)
        · exact absurd (List.mem_cons_self _ _) (b v1)

theorem sumAmounts_append (l : List Expense) (e : Expense) :
    sumAmounts (l ++ [e]) = Double.add (sumAmounts l) e.amount := by
  simp [sumAmounts, List.foldl_append]

/-- What the loop of `getSummary` maintains: after the expenses `done`, the map is
sorted, holds exactly the categories seen with their running sums, and the total is
the running sum of all amounts. -/
theorem summaryLoop_invariant :
    ∀ (rest done : List Expense) (s : Summary),
      s.categories.Pairwise (fun a b => a.1.data < b.1.data) →
      (∀ c v, (c, v) ∈ s.categories ↔
        (∃ e ∈ done, e.category = c) ∧
          v = sumAmounts (done.filter (fun e => decide (e.category = c)))) →
      s.total = sumAmounts done →
      (summaryLoop s rest).categories.Pairwise (fun a b => a.1.data < b.1.data) ∧
      (∀ c v, (c, v) ∈ (summaryLoop s rest).categories ↔
        (∃ e ∈ done ++ rest, e.category = c) ∧
          v = sumAmounts ((done ++ rest).filter (fun e => decide (e.category = c)))) ∧
      (summaryLoop s rest).total = sumAmounts (done ++ rest)
  | [], done, s, h1, h2, h3 => by
    simp only [summaryLoop, List.append_nil]
    exact ⟨h1, h2, h3⟩
  | x :: rest, done, s, h1, h2, h3 => by
    have key := summaryLoop_invariant rest (done ++ [x])
      { categories := mapAdd s.categories x.category x.amount
        total := Double.add s.total x.amount }
      (mapAdd_sorted _ _ _ h1) ?_ ?_
    · simpa only [summaryLoop, List.append_assoc, List.singleton_append] using key
    · intro c v
      simp only
      rw [mapAdd_mem _ _ _ _ _ h1]
      by_cases hc : c = x.category
      · subst hc
        have hfil : (done ++ [x]).filter (fun e => decide (e.category = x.category))
            = done.filter (fun e => decide (e.category = x.category)) ++ [x] := by
          simp [List.filter_append]
        rw [hfil, sumAmounts_append]
        constructor
        · rintro (⟨a, _⟩ | ⟨_, (⟨v0, hm, hv⟩ | ⟨hn, hv⟩)⟩)
          · exact absurd rfl a
          · refine ⟨⟨x, by simp, rfl⟩, ?_⟩
            rw [hv, ((h2 _ _).mp hm).2]
          · refine ⟨⟨x, by simp, rfl⟩, ?_⟩
            have hemp : done.filter (fun e => decide (e.category = x.category)) = [] := by
              rw [List.filter_eq_nil_iff]
              intro e he hcat
              have hcat2 : e.category = x.category := by simpa using hcat
              exact hn _ ((h2 _ _).mpr ⟨⟨e, he, hcat2⟩, rfl⟩)
            rw [hv, hemp]
            rfl
        · rintro ⟨_, hv⟩
          right
          refine ⟨rfl, ?_⟩
          by_cases hex : ∃ e ∈ done, e.category = x.category
          · left
            exact ⟨_, (h2 _ _).mpr ⟨hex, rfl⟩, hv⟩
          · right
            refine ⟨fun v0 hm => hex ((h2 _ _).mp hm).1, ?_⟩
            have hemp : done.filter (fun e => decide (e.category = x.category)) = [] := by
              rw [List.filter_eq_nil_iff]
              intro e he hcat
              have hcat2 : e.category = x.category := by simpa using hcat
              exact hex ⟨e, he, hcat2⟩
            rw [hv, hemp]
            rfl
      · have hx : ¬ x.category = c := fun h => hc h.symm
        have hfil : (done ++ [x]).filter (fun e => decide (e.category = c))
            = done.filter (fun e => decide (e.category = c)) := by
          simp [List.filter_append, hx]
        have hex : (∃ e ∈ done ++ [x], e.category = c) ↔ ∃ e ∈ done, e.category = c := by
          constructor
          · rintro ⟨e, he, hcat⟩
            rcases List.mem_append.mp he with h | h
            · exact ⟨e, h, hcat⟩
            · rw [List.mem_singleton.mp h] at hcat; exact absurd hcat hx
          · rintro ⟨e, he, hcat⟩
            exact ⟨e, List.mem_append_left _ he, hcat⟩
        rw [hfil, hex, ← h2]
        constructor
        · rintro (⟨_, h⟩ | ⟨a, _⟩)
          · exact h
          · exact absurd a hc
        · intro h
          exact Or.inl ⟨hc, h⟩
    · simp only
      rw [sumAmounts_append, h3]

/-! ## Exact additions -/

theorem bitLenAux_pos (k : Nat) : ∀ n, n ≠ 0 → 1 ≤ bitLenAux k n := by
  induction k with
  | zero => intro n hn; simp [bitLenAux, hn]
  | succ k ih =>
    intro n hn
    unfold bitLenAux
    split_ifs with h
    · have : 0 < 2 ^ k := Nat.two_pow_pos _
      omega
    · exact ih n hn

theorem bitLenAux_lower (k : Nat) : ∀ n, n ≠ 0 → 2 ^ (bitLenAux k n - 1) ≤ n := by
  induction k with
  | zero =>
    intro n hn
    simp only [bitLenAux, hn, if_false]
    exact Nat.one_le_iff_ne_zero.mpr hn
  | succ k ih =>
    intro n hn
    unfold bitLenAux
    split_ifs with h
    · have hp : 0 < 2 ^ 2 ^ k := Nat.two_pow_pos _
      have hq : n / 2 ^ 2 ^ k ≠ 0 := by
        have := Nat.div_pos h hp
        omega
      have h1 := ih _ hq
      have h2 := bitLenAux_pos k _ hq
      have e : 2 ^ k + bitLenAux k (n / 2 ^ 2 ^ k) - 1
          = 2 ^ k + (bitLenAux k (n / 2 ^ 2 ^ k) - 1) := Nat.add_sub_assoc h2 _
      rw [e, Nat.pow_add]
      calc 2 ^ 2 ^ k * 2 ^ (bitLenAux k (n / 2 ^ 2 ^ k) - 1)
          ≤ 2 ^ 2 ^ k * (n / 2 ^ 2 ^ k) := Nat.mul_le_mul_left _ h1
        _ ≤ n := Nat.mul_div_le n _
    · exact ih n hn

/-- A value with at most 53 significant bits is not changed by rounding. -/
theorem roundRatio_exact (m k : Nat) (hm : m < 2 ^ 53) : roundRatio (m * 2 ^ k) 1 = m * 2 ^ k := by
  unfold roundRatio
  simp only [Nat.div_one, one_mul]
  have hs : bitLength (m * 2 ^ k) - 53 ≤ k := by
    by_contra hcon
    have hne : m * 2 ^ k ≠ 0 := by
      intro h0
      have h00 : bitLength 0 = 0 := by decide
      rw [h0, h00] at hcon
      exact hcon (by omega)
    have hlow := bitLenAux_lower 12 _ hne
    have hlt : m * 2 ^ k < 2 ^ 53 * 2 ^ k :=
      Nat.mul_lt_mul_of_pos_right hm (Nat.two_pow_pos _)
    rw [← Nat.pow_add] at hlt
    have hle : 2 ^ (53 + k) ≤ 2 ^ (bitLenAux 12 (m * 2 ^ k) - 1) :=
      Nat.pow_le_pow_right (by decide) (by unfold bitLength at hcon; omega)
    omega
  generalize bitLength (m * 2 ^ k) - 53 = s at hs
  obtain ⟨j, rfl⟩ := Nat.exists_eq_add_of_le hs
  have e : m * 2 ^ (s + j) = (m * 2 ^ j) * 2 ^ s := by rw [Nat.pow_add]; ring
  have hp : 0 < 2 ^ s := Nat.two_pow_pos _
  rw [e, Nat.mul_mod_left, Nat.mul_div_cancel _ hp]
  simp [hp]

/-- Addition is exact on multiples of `2^k` whose sum has at most 53 significant bits. -/
theorem Double.add_exact (k a b : Nat) (hk : k ≤ 2045) (h : a + b < 2 ^ 53) :
    Double.add (Double.fin ((a * 2 ^ k : Nat) : Int)) (Double.fin ((b * 2 ^ k : Nat) : Int))
      = Double.fin (((a + b) * 2 ^ k : Nat) : Int) := by
  have e : ((a * 2 ^ k : Nat) : Int) + ((b * 2 ^ k : Nat) : Int) = (((a + b) * 2 ^ k : Nat) : Int) := by
    push_cast; ring
  simp only [Double.add, Double.round, e, Int.natAbs_ofNat, roundRatio_exact _ k h]
  have hlt : (a + b) * 2 ^ k < 2 ^ 2098 := by
    calc (a + b) * 2 ^ k < 2 ^ 53 * 2 ^ k :=
          Nat.mul_lt_mul_of_pos_right h (Nat.two_pow_pos _)
      _ = 2 ^ (53 + k) := by rw [Nat.pow_add]
      _ ≤ 2 ^ 2098 := Nat.pow_le_pow_right (by decide) (by omega)
  have hneg : ¬ ((((a + b) * 2 ^ k : Nat) : Int) < 0) := by
    have := Int.ofNat_nonneg ((a + b) * 2 ^ k)
    omega
  rw [if_neg (by omega), if_neg hneg]

theorem Double.zero_eq_grid (k : Nat) : Double.zero = Double.fin ((0 * 2 ^ k : Nat) : Int) := by
  simp [Double.zero]

theorem mapAdd_exact (k : Nat) (hk : k ≤ 2045) (c : String) (x : Nat) :
    ∀ (m : List (String × Double)) (vs : List Nat),
      m.map Prod.snd = vs.map (fun n => Double.fin ((n * 2 ^ k : Nat) : Int)) →
      vs.sum + x < 2 ^ 53 →
      ∃ ws : List Nat, (mapAdd m c (Double.fin ((x * 2 ^ k : Nat) : Int))).map Prod.snd
          = ws.map (fun n => Double.fin ((n * 2 ^ k : Nat) : Int)) ∧ ws.sum = vs.sum + x
  | [], vs, _, hs => by
    refine ⟨[x], ?_, ?_⟩
    · have h0 : 0 + x < 2 ^ 53 := by omega
      have := Double.add_exact k 0 x hk h0
      rw [← Double.zero_eq_grid] at this
      simp only [mapAdd, List.map_cons, List.map_nil, this, Nat.zero_add]
    · cases vs with
      | nil => simp
      | cons a l => simp at *
  | (k1, v1) :: rest, [], hm, _ => by simp at hm
  | (k1, v1) :: rest, n1 :: ns, hm, hs => by
    simp only [List.map_cons, List.cons.injEq] at hm
    obtain ⟨hv, hrest⟩ := hm
    simp only [List.sum_cons] at hs
    unfold mapAdd
    split_ifs with h1 h2
    · refine ⟨x :: n1 :: ns, ?_, ?_⟩
      · have h0 : 0 + x < 2 ^ 53 := by omega
        have := Double.add_exact k 0 x hk h0
        rw [← Double.zero_eq_grid] at this
        simp only [List.map_cons, this, Nat.zero_add, hv, hrest]
      · simp only [List.sum_cons]; omega
    · obtain ⟨ws, w1, w2⟩ := mapAdd_exact k hk c x rest ns hrest (by omega)
      refine ⟨n1 :: ws, ?_, ?_⟩
      · simp only [List.map_cons, hv, w1]
      · simp only [List.sum_cons, w2]; omega
    · refine ⟨(n1 + x) :: ns, ?_, ?_⟩
      · have := Double.add_exact k n1 x hk (by omega)
        simp only [List.map_cons, hv, this, hrest]
      · simp only [List.sum_cons]; omega

theorem summaryLoop_exact (k : Nat) (hk : k ≤ 2045) :
    ∀ (rest : List Expense) (ns : List Nat) (s : Summary) (vs : List Nat),
      rest.map (fun e => e.amount) = ns.map (fun n => Double.fin ((n * 2 ^ k : Nat) : Int)) →
      s.categories.map Prod.snd = vs.map (fun n => Double.fin ((n * 2 ^ k : Nat) : Int)) →
      s.total = Double.fin ((vs.sum * 2 ^ k : Nat) : Int) →
      vs.sum + ns.sum < 2 ^ 53 →
      ∃ ws : List Nat, (summaryLoop s rest).categories.map Prod.snd
          = ws.map (fun n => Double.fin ((n * 2 ^ k : Nat) : Int)) ∧
        ws.sum = vs.sum + ns.sum ∧
        (summaryLoop s rest).total = Double.fin (((vs.sum + ns.sum) * 2 ^ k : Nat) : Int)
  | [], ns, s, vs, hr, hc, ht, _ => by
    cases ns with
    | nil => exact ⟨vs, hc, by simp, by simpa using ht⟩
    | cons a l => simp at hr
  | e :: rest, [], s, vs, hr, _, _, _ => by simp at hr
  | e :: rest, n :: ns, s, vs, hr, hc, ht, hs => by
    simp only [List.map_cons, List.cons.injEq] at hr
    obtain ⟨he, hrest⟩ := hr
    simp only [List.sum_cons] at hs
    obtain ⟨ws, w1, w2⟩ := mapAdd_exact k hk e.category n s.categories vs hc (by omega)
    rw [← he] at w1
    have ht2 : Double.add s.total e.amount = Double.fin ((ws.sum * 2 ^ k : Nat) : Int) := by
      rw [ht, he, Double.add_exact k _ _ hk (by omega), w2]
    obtain ⟨us, u1, u2, u3⟩ := summaryLoop_exact k hk rest ns
      { categories := mapAdd s.categories e.category e.amount
        total := Double.add s.total e.amount } ws hrest w1 ht2 (by omega)
    refine ⟨us, ?_, ?_, ?_⟩
    · simpa only [summaryLoop] using u1
    · simp only [List.sum_cons]; omega
    · simp only [summaryLoop, List.sum_cons]
      rw [u3, w2]
      congr 3
      omega

theorem foldl_add_exact (k : Nat) (hk : k ≤ 2045) :
    ∀ (vs : List Nat) (a : Nat), a + vs.sum < 2 ^ 53 →
      (vs.map (fun n => Double.fin ((n * 2 ^ k : Nat) : Int))).foldl Double.add
          (Double.fin ((a * 2 ^ k : Nat) : Int))
        = Double.fin (((a + vs.sum) * 2 ^ k : Nat) : Int)
  | [], a, _ => by simp
  | v :: vs, a, h => by
    simp only [List.sum_cons] at h
    simp only [List.map_cons, List.foldl_cons, List.sum_cons]
    rw [Double.add_exact k a v hk (by omega), foldl_add_exact k hk vs (a + v) (by omega)]
    congr 3
    omega

theorem sumEntries_eq_foldl (m : List (String × Double)) :
    sumEntries m = (m.map Prod.snd).foldl Double.add Double.zero := by
  simp [sumEntries, List.foldl_map]

/-- With exact additions the entries of the summary add up to its total. -/
theorem getSummary_exact (k : Nat) (hk : k ≤ 2045) (L : List Expense) (ns : List Nat)
    (hL : L.map (fun e => e.amount) = ns.map (fun n => Double.fin ((n * 2 ^ k : Nat) : Int)))
    (hsum : ns.sum < 2 ^ 53) :
    sumEntries (getSummary { expenses := L }).categories = (getSummary { expenses := L }).total ∧
      (getSummary { expenses := L }).total = Double.fin ((ns.sum * 2 ^ k : Nat) : Int) := by
  obtain ⟨ws, w1, w2, w3⟩ := summaryLoop_exact k hk L ns
    { categories := [], total := Double.zero } [] hL (by simp) (by simp [Double.zero])
    (by simpa using hsum)
  simp only [List.sum_nil, Nat.zero_add] at w2 w3
  have ht : (getSummary { expenses := L }).total = Double.fin ((ns.sum * 2 ^ k : Nat) : Int) := w3
  refine ⟨?_, ht⟩
  rw [ht, sumEntries_eq_foldl]
  have hc : (getSummary { expenses := L }).categories.map Prod.snd
      = ws.map (fun n => Double.fin ((n * 2 ^ k : Nat) : Int)) := w1
  rw [hc, Double.zero_eq_grid k, foldl_add_exact k hk ws 0 (by omega), Nat.zero_add, w2]

/-! ## Calendar order and `time_t` order -/

theorem localtime_midnight (a : Int) :
    (localtime (86400 * a)).tm_year = yearOfDays a - 1900 ∧
    (localtime (86400 * a)).tm_mon
      = monthOfYday (isLeap (yearOfDays a)) (a - daysBeforeYear (yearOfDays a)) ∧
    (localtime (86400 * a)).tm_mday
      = a - daysBeforeYear (yearOfDays a)
        - daysBeforeMonth (isLeap (yearOfDays a))
            (monthOfYday (isLeap (yearOfDays a)) (a - daysBeforeYear (yearOfDays a))) + 1 := by
  have hdiv : 86400 * a / 86400 = a := by omega
  simp only [localtime, hdiv]
  exact ⟨trivial, trivial, trivial⟩

/-- Calendar order of two midnights is the order of their day numbers. -/
theorem dateLE_localtime (a b : Int) :
    dateLE (localtime (86400 * a)) (localtime (86400 * b)) = true ↔ a ≤ b := by
  obtain ⟨ya, ma, da⟩ := localtime_midnight a
  obtain ⟨yb, mb, db⟩ := localtime_midnight b
  obtain ⟨sa0, sa1⟩ := yearOfDays_spec a
  obtain ⟨sb0, sb1⟩ := yearOfDays_spec b
  obtain ⟨ra0, ra1⟩ := yday_range a
  obtain ⟨rb0, rb1⟩ := yday_range b
  obtain ⟨pa0, pa1, pa2, pa3⟩ := monthOfYday_spec _ _ ra0 ra1
  obtain ⟨pb0, pb1, pb2, pb3⟩ := monthOfYday_spec _ _ rb0 rb1
  simp only [dateLE, Bool.or_eq_true, Bool.and_eq_true, decide_eq_true_eq, ya, yb, ma, mb, da, db]
  rcases lt_trichotomy (yearOfDays a) (yearOfDays b) with hy | hy | hy
  · have := daysBeforeYear_mono (show yearOfDays a + 1 ≤ yearOfDays b by omega)
    constructor
    · intro _; omega
    · intro _; left; omega
  · rw [hy] at pa0 pa1 pa2 pa3 sa0 sa1 ra0 ra1 ⊢
    generalize yearOfDays b = y at *
    generalize hA : monthOfYday (isLeap y) (a - daysBeforeYear y) = mona at *
    generalize hB : monthOfYday (isLeap y) (b - daysBeforeYear y) = monb at *
    rcases lt_trichotomy mona monb with hm | hm | hm
    · have := daysBeforeMonth_le (isLeap y) (show 0 ≤ mona + 1 by omega)
        (show mona + 1 ≤ monb by omega) pb1
      have := pa3 (by omega)
      constructor
      · intro _; omega
      · intro _; right; exact ⟨by omega, Or.inl hm⟩
    · subst hm
      constructor
      · rintro (h | ⟨_, (h | ⟨_, h⟩)⟩) <;> omega
      · intro h; right; exact ⟨by omega, Or.inr ⟨rfl, by omega⟩⟩
    · have := daysBeforeMonth_le (isLeap y) (show 0 ≤ monb + 1 by omega)
        (show monb + 1 ≤ mona by omega) pa1
      have := pb3 (by omega)
      constructor
      · rintro (h | ⟨_, (h | ⟨h, _⟩)⟩) <;> omega
      · intro _; omega
  · have := daysBeforeYear_mono (show yearOfDays b + 1 ≤ yearOfDays a by omega)
    constructor
    · rintro (h | ⟨h, _⟩) <;> omega
    · intro _; omega

/-! ## `filterExpenses` on normalised dates -/

theorem filterStep_normal (hasStartDate hasEndDate : Bool) (category : String)
    (startDate endDate : tm) (e : Expense)
    (hs : hasStartDate = true → mktime startDate = (timeOf startDate, startDate))
    (he : hasEndDate = true → mktime endDate = (timeOf endDate, endDate))
    (hx : mktime e.date = (timeOf e.date, e.date)) :
    filterStep hasStartDate hasEndDate category startDate endDate e =
      ((!hasStartDate || decide (timeOf startDate ≤ timeOf e.date)) &&
        (!hasEndDate || decide (timeOf e.date ≤ timeOf endDate)) &&
        (category.isEmpty || caseInsensitiveCompare e.category category),
       e, startDate, endDate) := by
  obtain ⟨d, a, c, ds⟩ := e
  simp only at hx
  cases hasStartDate <;> cases hasEndDate
  · cases hcat : category.isEmpty <;>
      cases hci : caseInsensitiveCompare c category <;> simp [filterStep, hcat, hci]
  · have he2 := he rfl
    by_cases h2 : timeOf d ≤ timeOf endDate <;>
      cases hcat : category.isEmpty <;>
      cases hci : caseInsensitiveCompare c category <;>
      simp [filterStep, hcat, hci, hx, he2, h2] <;> omega
  · have hs2 := hs rfl
    by_cases h1 : timeOf startDate ≤ timeOf d <;>
      cases hcat : category.isEmpty <;>
      cases hci : caseInsensitiveCompare c category <;>
      simp [filterStep, hcat, hci, hx, hs2, h1] <;> omega
  · have hs2 := hs rfl
    have he2 := he rfl
    by_cases h1 : timeOf startDate ≤ timeOf d <;>
      by_cases h2 : timeOf d ≤ timeOf endDate <;>
      cases hcat : category.isEmpty <;>
      cases hci : caseInsensitiveCompare c category <;>
      simp [filterStep, hcat, hci, hx, hs2, he2, h1, h2] <;> omega

theorem filterLoop_normal (hasStartDate hasEndDate : Bool) (category : String)
    (startDate endDate : tm)
    (hs : hasStartDate = true → mktime startDate = (timeOf startDate, startDate))
    (he : hasEndDate = true → mktime endDate = (timeOf endDate, endDate)) :
    ∀ (l : List Expense), (∀ e ∈ l, mktime e.date = (timeOf e.date, e.date)) →
      filterLoop hasStartDate hasEndDate category startDate endDate l =
        (l.filter (fun e =>
          (!hasStartDate || decide (timeOf startDate ≤ timeOf e.date)) &&
          (!hasEndDate || decide (timeOf e.date ≤ timeOf endDate)) &&
          (category.isEmpty || caseInsensitiveCompare e.category category)), l)
  | [], _ => rfl
  | e :: rest, hl => by
    have hstep := filterStep_normal hasStartDate hasEndDate category startDate endDate e hs he
      (hl e (List.mem_cons_self _ _))
    have ih := filterLoop_normal hasStartDate hasEndDate category startDate endDate hs he rest
      (fun x hx => hl x (List.mem_cons_of_mem _ hx))
    simp only [filterLoop, hstep, ih, List.filter_cons]

theorem parseDate_midnight {s : String} {d : tm} (h : parseDate s = some d) :
    ∃ k : Int, d = localtime (86400 * k) := by
  obtain ⟨year, month, day, -, -, -, -, -, -, -, -, -, -, -, -, -, -, -, -, hd⟩ :=
    parseDate_eq_some h
  exact ⟨_, hd⟩

theorem mktime_midnight {d : tm} (h : ∃ k : Int, d = localtime (86400 * k)) :
    mktime d = (timeOf d, d) := by
  obtain ⟨k, rfl⟩ := h
  rw [mktime_localtime, timeOf_localtime]

/-- The filter computed by `filterExpenses`, when every date involved is normalised. -/
theorem filterExpenses_normal (t : ExpenseTracker) (startDateStr endDateStr category : String)
    (ht : ∀ e ∈ t.expenses, ∃ k : Int, e.date = localtime (86400 * k)) :
    (t.filterExpenses startDateStr endDateStr category).value
        = t.expenses.filter (selected startDateStr endDateStr category) ∧
      (t.filterExpenses startDateStr endDateStr category).tracker = t := by
  have hl : ∀ e ∈ t.expenses, mktime e.date = (timeOf e.date, e.date) :=
    fun e he => mktime_midnight (ht e he)
  have hsel : ∀ (hasS hasE : Bool) (sd ed : tm),
      (hasS = true → ∃ k : Int, sd = localtime (86400 * k)) →
      (hasE = true → ∃ k : Int, ed = localtime (86400 * k)) →
      (∀ e ∈ t.expenses, (!hasS || decide (timeOf sd ≤ timeOf e.date))
          = (!hasS || dateLE sd e.date) ∧
        (!hasE || decide (timeOf e.date ≤ timeOf ed)) = (!hasE || dateLE e.date ed)) := by
    intro hasS hasE sd ed hs he e hmem
    obtain ⟨k, hk⟩ := ht e hmem
    constructor
    · cases hasS with
      | false => rfl
      | true =>
        obtain ⟨ks, hks⟩ := hs rfl
        rw [hk, hks, timeOf_localtime, timeOf_localtime]
        simp only [Bool.not_true, Bool.false_or]
        rw [Bool.eq_iff_iff, decide_eq_true_eq, dateLE_localtime]
        omega
    · cases hasE with
      | false => rfl
      | true =>
        obtain ⟨ke, hke⟩ := he rfl
        rw [hk, hke, timeOf_localtime, timeOf_localtime]
        simp only [Bool.not_true, Bool.false_or]
        rw [Bool.eq_iff_iff, decide_eq_true_eq, dateLE_localtime]
        omega
  have main : ∀ (hasS hasE : Bool) (sd ed : tm),
      (hasS = true → ∃ k : Int, sd = localtime (86400 * k)) →
      (hasE = true → ∃ k : Int, ed = localtime (86400 * k)) →
      filterLoop hasS hasE category sd ed t.expenses =
        (t.expenses.filter (fun e => (!hasS || dateLE sd e.date) && (!hasE || dateLE e.date ed)
          && (category.isEmpty || caseInsensitiveCompare e.category category)), t.expenses) := by
    intro hasS hasE sd ed hs he
    rw [filterLoop_normal hasS hasE category sd ed (fun h => mktime_midnight (hs h))
      (fun h => mktime_midnight (he h)) t.expenses hl]
    congr 1
    apply List.filter_congr
    intro e hmem
    obtain ⟨h1, h2⟩ := hsel hasS hasE sd ed hs he e hmem
    rw [h1, h2]
  unfold filterExpenses
  cases hS : startDateStr.isEmpty <;> cases hE : endDateStr.isEmpty <;>
    cases hpS : parseDate startDateStr <;> cases hpE : parseDate endDateStr <;>
    simp only [Bool.not_false, Bool.not_true, if_true, if_false, Bool.false_eq_true] <;>
    (rw [main _ _ _ _ (by first | exact fun _ => parseDate_midnight hpS | (intro h; cases h))
          (by first | exact fun _ => parseDate_midnight hpE | (intro h; cases h))]
     refine ⟨?_, rfl⟩
     apply List.filter_congr
     intro e _
     simp [selected, hS, hE, hpS, hpE])

/-- One call keeps every stored date normalised. -/
theorem step_midnight (t : ExpenseTracker) (op : Op)
    (ht : ∀ e ∈ t.expenses, ∃ k : Int, e.date = localtime (86400 * k)) :
    ∀ e ∈ (t.step op).expenses, ∃ k : Int, e.date = localtime (86400 * k) := by
  cases op with
  | add dateStr amount category description =>
    simp only [ExpenseTracker.step]
    rw [addExpense_outcome]
    cases hp : parseDate dateStr with
    | none => exact ht
    | some date =>
      simp only
      split_ifs
      · exact ht
      · exact ht
      · intro e he
        rcases List.mem_append.mp he with h | h
        · exact ht e h
        · rw [List.mem_singleton.mp h]
          exact parseDate_midnight hp
  | filter startDateStr endDateStr category =>
    simp only [ExpenseTracker.step]
    rw [(filterExpenses_normal t startDateStr endDateStr category ht).2]
    exact ht
  | summary => exact ht
  | getAll => exact ht

theorem foldl_step_midnight (ops : List Op) :
    ∀ (t : ExpenseTracker), (∀ e ∈ t.expenses, ∃ k : Int, e.date = localtime (86400 * k)) →
      ∀ e ∈ (ops.foldl ExpenseTracker.step t).expenses, ∃ k : Int, e.date = localtime (86400 * k) := by
  induction ops with
  | nil => intro t ht; exact ht
  | cons op rest ih =>
    intro t ht
    exact ih (t.step op) (step_midnight t op ht)

/-- Every date stored in a reachable tracker is a normalised midnight. -/
theorem run_midnight (ops : List Op) :
    ∀ e ∈ (ExpenseTracker.run ops).expenses, ∃ k : Int, e.date = localtime (86400 * k) :=
  foldl_step_midnight ops { expenses := [] } (by intro e he; cases he)

/-! ## The category match as a relation -/

theorem caseInsensitiveCompare_eq_true (a b : String) :
    caseInsensitiveCompare a b = true ↔
      a.data.length = b.data.length ∧
        ∀ i, i < a.data.length →
          tolower (a.data.getD i default) = tolower (b.data.getD i default) := by
  unfold caseInsensitiveCompare
  by_cases h : a.length = b.length
  · have hl : a.data.length = b.data.length := h
    have := equalBy_iff (fun x y => tolower x == tolower y) a.data b.data hl
    simp only [h, bne_self_eq_false, Bool.false_eq_true, if_false, this, beq_iff_eq, true_and]
    constructor
    · intro hall
      exact ⟨hl, hall⟩
    · intro hall
      exact hall.2
  · have hl : ¬ a.data.length = b.data.length := h
    simp [h, hl]

theorem caseInsensitiveCompare_refl (a : String) : caseInsensitiveCompare a a = true :=
  (caseInsensitiveCompare_eq_true a a).2 ⟨rfl, fun _ _ => rfl⟩

theorem caseInsensitiveCompare_symm {a b : String} (h : caseInsensitiveCompare a b = true) :
    caseInsensitiveCompare b a = true := by
  obtain ⟨hl, hall⟩ := (caseInsensitiveCompare_eq_true a b).1 h
  exact (caseInsensitiveCompare_eq_true b a).2 ⟨hl.symm, fun i hi => (hall i (hl ▸ hi)).symm⟩

theorem caseInsensitiveCompare_trans {a b c : String} (h1 : caseInsensitiveCompare a b = true)
    (h2 : caseInsensitiveCompare b c = true) : caseInsensitiveCompare a c = true := by
  obtain ⟨hl1, hall1⟩ := (caseInsensitiveCompare_eq_true a b).1 h1
  obtain ⟨hl2, hall2⟩ := (caseInsensitiveCompare_eq_true b c).1 h2
  exact (caseInsensitiveCompare_eq_true a c).2
    ⟨hl1.trans hl2, fun i hi => (hall1 i hi).trans (hall2 i (hl1 ▸ hi))⟩

theorem caseInsensitiveCompare_comm (a b : String) :
    caseInsensitiveCompare a b = caseInsensitiveCompare b a := by
  rw [Bool.eq_iff_iff]
  exact ⟨caseInsensitiveCompare_symm, caseInsensitiveCompare_symm⟩

theorem isEmpty_eq_of_match {c1 c2 : String} (h : caseInsensitiveCompare c1 c2 = true) :
    c1.isEmpty = c2.isEmpty := by
  obtain ⟨hl, -⟩ := (caseInsensitiveCompare_eq_true c1 c2).1 h
  rw [Bool.eq_iff_iff, String.isEmpty_iff, String.isEmpty_iff]
  have e1 : c1 = "" ↔ c1.data.length = 0 := by
    rw [List.length_eq_zero]
    exact ⟨fun h => by rw [h], fun h => String.ext h⟩
  have e2 : c2 = "" ↔ c2.data.length = 0 := by
    rw [List.length_eq_zero]
    exact ⟨fun h => by rw [h], fun h => String.ext h⟩
  rw [e1, e2, hl]

theorem filterStep_congr_category (hasStartDate hasEndDate : Bool) {c1 c2 : String}
    (h : caseInsensitiveCompare c1 c2 = true) (startDate endDate : tm) (e : Expense) :
    filterStep hasStartDate hasEndDate c1 startDate endDate e
      = filterStep hasStartDate hasEndDate c2 startDate endDate e := by
  have h1 := isEmpty_eq_of_match h
  have h2 : ∀ x : String, caseInsensitiveCompare x c1 = caseInsensitiveCompare x c2 := by
    intro x
    rw [Bool.eq_iff_iff]
    exact ⟨fun hx => caseInsensitiveCompare_trans hx h,
      fun hx => caseInsensitiveCompare_trans hx (caseInsensitiveCompare_symm h)⟩
  simp only [filterStep, h1, h2]

theorem filterLoop_congr_category (hasStartDate hasEndDate : Bool) {c1 c2 : String}
    (h : caseInsensitiveCompare c1 c2 = true) :
    ∀ (l : List Expense) (startDate endDate : tm),
      filterLoop hasStartDate hasEndDate c1 startDate endDate l
        = filterLoop hasStartDate hasEndDate c2 startDate endDate l := by
  intro l
  induction l with
  | nil => intro _ _; rfl
  | cons e rest ih =>
    intro startDate endDate
    simp only [filterLoop, filterStep_congr_category hasStartDate hasEndDate h, ih]

/-! ## Strict calendar order -/

theorem dateLT_iff_not_dateLE (a b : tm) : dateLT a b = true ↔ ¬ dateLE b a = true := by
  simp only [dateLT, dateLE, Bool.or_eq_true, Bool.and_eq_true, decide_eq_true_eq]
  omega

theorem sameDay_iff_dateLE (a b : tm) :
    sameDay a b = true ↔ dateLE a b = true ∧ dateLE b a = true := by
  simp only [sameDay, dateLE, Bool.or_eq_true, Bool.and_eq_true, decide_eq_true_eq]
  omega

theorem timestamp_localtime (k : Int) : timestamp (localtime (86400 * k)) = 86400 * k := by
  simp only [timestamp, mktime, timeOf_localtime]

theorem dateLT_localtime (a b : Int) :
    dateLT (localtime (86400 * a)) (localtime (86400 * b)) = true ↔ a < b := by
  rw [dateLT_iff_not_dateLE, dateLE_localtime]
  omega

theorem sameDay_localtime (a b : Int) :
    sameDay (localtime (86400 * a)) (localtime (86400 * b)) = true ↔ a = b := by
  rw [sameDay_iff_dateLE, dateLE_localtime, dateLE_localtime]
  omega

theorem parseDate_empty : parseDate "" = none := by decide

theorem isEmpty_of_parseDate {s : String} {d : tm} (h : parseDate s = some d) :
    s.isEmpty = false := by
  cases hs : s.isEmpty
  · rfl
  · rw [String.isEmpty_iff] at hs
    rw [hs, parseDate_empty] at h
    cases h

/-- The inclusion rule when both bounds parse. -/
theorem selected_of_parse {s e : String} (category : String) {ks ke : Int}
    (hs : parseDate s = some (localtime (86400 * ks)))
    (he : parseDate e = some (localtime (86400 * ke))) (x : Expense) (kx : Int)
    (hx : x.date = localtime (86400 * kx)) :
    selected s e category x = true ↔
      (ks ≤ kx ∧ kx ≤ ke) ∧
        (category.isEmpty = true ∨ caseInsensitiveCompare x.category category = true) := by
  simp only [selected, hs, he, isEmpty_of_parseDate hs, isEmpty_of_parseDate he, hx,
    Bool.false_or, Bool.and_eq_true, Bool.or_eq_true, dateLE_localtime]

/-! ## Extraction from a text followed by more text -/

theorem skipws_append (t : List Char) :
    ∀ l : List Char, skipws l ≠ [] → skipws (l ++ t) = skipws l ++ t
  | [], h => absurd rfl h
  | c :: cs, h => by
    by_cases hc : isspace c = true
    · have h1 : skipws (c :: cs) = skipws cs := by simp [skipws, hc]
      have h2 : skipws (c :: cs ++ t) = skipws (cs ++ t) := by simp [skipws, hc]
      rw [h1] at h
      rw [h1, h2]
      exact skipws_append t cs h
    · have hc0 : isspace c = false := by simpa using hc
      rw [List.cons_append, skipws_cons_of_not_space _ hc0, skipws_cons_of_not_space _ hc0]
      rfl

theorem takeDigits_append_suffix (t : List Char) :
    ∀ l : List Char, ((takeDigits l).2 ≠ [] ∨ ∀ c r, t = c :: r → isdigit c = false) →
      takeDigits (l ++ t) = ((takeDigits l).1, (takeDigits l).2 ++ t)
  | [], h => by
    rcases h with h | h
    · exact absurd rfl h
    · cases t with
      | nil => rfl
      | cons c r => simp [takeDigits, h c r rfl]
  | c :: cs, h => by
    by_cases hc : isdigit c = true
    · have h1 : takeDigits (c :: cs) = ((takeDigits cs).1.cons c, (takeDigits cs).2) := by
        simp [takeDigits, hc]
      have h2 : takeDigits (c :: cs ++ t)
          = ((takeDigits (cs ++ t)).1.cons c, (takeDigits (cs ++ t)).2) := by
        simp [takeDigits, hc]
      rw [h1] at h
      rw [h1, h2, takeDigits_append_suffix t cs h]
    · have hc0 : isdigit c = false := by simpa using hc
      simp [takeDigits, hc0]

theorem extractChar_append {l : List Char} {c : Char} {r : List Char} (t : List Char)
    (h : extractChar l = some (c, r)) : extractChar (l ++ t) = some (c, r ++ t) := by
  unfold extractChar at h ⊢
  cases hs : skipws l with
  | nil => rw [hs] at h; cases h
  | cons c0 r0 =>
    rw [hs] at h
    rw [skipws_append t l (by rw [hs]; exact List.cons_ne_nil _ _), hs]
    simp only [Option.some.injEq, Prod.mk.injEq] at h
    obtain ⟨rfl, rfl⟩ := h
    rfl

theorem extractChar_rest_ne_nil {l : List Char} {c : Char} {r : List Char}
    (h : extractChar l = some (c, r)) : l ≠ [] := by
  rintro rfl
  simp [extractChar, skipws] at h

theorem extractInt_append {l : List Char} {v : Int} {r : List Char} (t : List Char)
    (h : extractInt l = some (v, r))
    (ht : r ≠ [] ∨ ∀ c r0, t = c :: r0 → isdigit c = false) :
    extractInt (l ++ t) = some (v, r ++ t) := by
  unfold extractInt at h ⊢
  cases hs : skipws l with
  | nil =>
    rw [hs] at h
    simp [takeDigits] at h
  | cons c0 r0 =>
    rw [hs] at h
    rw [skipws_append t l (by rw [hs]; exact List.cons_ne_nil _ _), hs, List.cons_append]
    simp only at h ⊢
    by_cases h1 : c0 = '-'
    · simp only [if_pos h1] at h ⊢
      by_cases hd : (takeDigits r0).1.isEmpty = true
      · simp [hd] at h
      · by_cases hv : -(digitsValue (takeDigits r0).1 : Int) < INT_MIN
            ∨ INT_MAX < -(digitsValue (takeDigits r0).1 : Int)
        · simp [hd, hv] at h
        · simp only [hd, hv, if_false, if_true, Bool.false_eq_true, Option.some.injEq,
            Prod.mk.injEq] at h
          obtain ⟨hv1, hr1⟩ := h
          rw [takeDigits_append_suffix t r0 (by rw [hr1]; exact ht)]
          simp only [hd, hv, if_false, if_true, Bool.false_eq_true, hv1, hr1]
          rw [hv1] at hv
          exact if_neg hv
    · by_cases h2 : c0 = '+'
      · simp only [if_neg h1, if_pos h2] at h ⊢
        by_cases hd : (takeDigits r0).1.isEmpty = true
        · simp [hd] at h
        · by_cases hv : (digitsValue (takeDigits r0).1 : Int) < INT_MIN
              ∨ INT_MAX < (digitsValue (takeDigits r0).1 : Int)
          · simp [hd, hv] at h
          · simp only [hd, hv, if_false, Bool.false_eq_true, Option.some.injEq,
              Prod.mk.injEq] at h
            obtain ⟨hv1, hr1⟩ := h
            rw [takeDigits_append_suffix t r0 (by rw [hr1]; exact ht)]
            simp only [hd, hv, if_false, Bool.false_eq_true, hv1, hr1]
            rw [hv1] at hv
            exact if_neg hv
      · simp only [if_neg h1, if_neg h2] at h ⊢
        by_cases hd : (takeDigits (c0 :: r0)).1.isEmpty = true
        · simp [hd] at h
        · by_cases hv : (digitsValue (takeDigits (c0 :: r0)).1 : Int) < INT_MIN
              ∨ INT_MAX < (digitsValue (takeDigits (c0 :: r0)).1 : Int)
          · simp [hd, hv] at h
          · simp only [hd, hv, if_false, Bool.false_eq_true, Option.some.injEq,
              Prod.mk.injEq] at h
            obtain ⟨hv1, hr1⟩ := h
            rw [← List.cons_append,
              takeDigits_append_suffix t (c0 :: r0) (by rw [hr1]; exact ht)]
            simp only [hd, hv, if_false, Bool.false_eq_true, hv1, hr1]
            rw [hv1] at hv
            exact if_neg hv

/-! ## What every reachable ledger satisfies -/

/-- The broken-down time of a midnight from 1900 on is a real date. -/
theorem localtime_real (k : Int) (hk : daysBeforeYear 1900 ≤ k) :
    realDate ((localtime (86400 * k)).tm_year + 1900) ((localtime (86400 * k)).tm_mon + 1)
      (localtime (86400 * k)).tm_mday = true := by
  obtain ⟨hy, hm, hd⟩ := localtime_midnight k
  obtain ⟨s0, s1⟩ := yearOfDays_spec k
  obtain ⟨r0, r1⟩ := yday_range k
  obtain ⟨m0, m1, m2, m3⟩ :=
    monthOfYday_spec (isLeap (yearOfDays k)) (k - daysBeforeYear (yearOfDays k)) r0 r1
  have hsucc := daysBeforeMonth_succ (yearOfDays k)
    (monthOfYday (isLeap (yearOfDays k)) (k - daysBeforeYear (yearOfDays k))) m0 m1
  have hyear : 1900 ≤ yearOfDays k := by
    by_contra hlt
    have := daysBeforeYear_mono (show yearOfDays k + 1 ≤ 1900 by omega)
    omega
  rw [hy, hm, hd, sub_add_cancel]
  clear hy hm hd
  generalize monthOfYday (isLeap (yearOfDays k)) (k - daysBeforeYear (yearOfDays k)) = m
    at m0 m1 m2 m3 hsucc ⊢
  simp only [realDate, Bool.and_eq_true, decide_eq_true_eq]
  refine ⟨⟨⟨⟨by omega, by omega⟩, by omega⟩, by omega⟩, ?_⟩
  by_cases h11 : m = 11
  · rw [if_pos h11] at hsucc
    omega
  · rw [if_neg h11] at hsucc
    have := m3 (by omega)
    omega

/-- A date returned by `parseDate` is a real date with year at least 1900. -/
theorem parseDate_real {s : String} {d : tm} (h : parseDate s = some d) :
    realDate (d.tm_year + 1900) (d.tm_mon + 1) d.tm_mday = true := by
  obtain ⟨year, month, day, c1, s1, s2, s3, s4, s5, -, -, -, -, -, hy, hm0, hm1, hd0, hd1, rfl⟩ :=
    parseDate_eq_some h
  apply localtime_real
  have h1 := daysBeforeYear_mono hy
  have h2 := (daysBeforeMonth_bounds (isLeap year) (month - 1) (by omega) (by omega)).2.2
  omega

/-- One call either leaves the ledger as it is or appends one expense to it. -/
theorem step_expenses (t : ExpenseTracker) (op : Op)
    (ht : ∀ e ∈ t.expenses, ∃ k : Int, e.date = localtime (86400 * k)) :
    (t.step op).expenses = t.expenses ∨
      ∃ x : Expense, storedOk x = true ∧ (t.step op).expenses = t.expenses ++ [x] := by
  cases op with
  | add dateStr amount category description =>
    simp only [ExpenseTracker.step]
    rw [addExpense_outcome]
    cases hp : parseDate dateStr with
    | none => exact Or.inl rfl
    | some date =>
      simp only
      by_cases h1 : Double.le amount Double.zero = true
      · rw [if_pos h1]; exact Or.inl rfl
      · rw [if_neg h1]
        by_cases h2 : category = ""
        · rw [if_pos h2]; exact Or.inl rfl
        · rw [if_neg h2]
          have hc : category.isEmpty = false := by
            cases hx : category.isEmpty
            · rfl
            · rw [String.isEmpty_iff] at hx; exact absurd hx h2
          have hle : Double.le amount Double.zero = false := by simpa using h1
          refine Or.inr ⟨_, ?_, rfl⟩
          simp only [storedOk, hle, hc, parseDate_real hp]
          rfl
  | filter startDateStr endDateStr category =>
    simp only [ExpenseTracker.step]
    rw [(filterExpenses_normal t startDateStr endDateStr category ht).2]
    exact Or.inl rfl
  | summary => exact Or.inl rfl
  | getAll => exact Or.inl rfl

theorem foldl_step_storedOk (ops : List Op) :
    ∀ (t : ExpenseTracker), (∀ e ∈ t.expenses, ∃ k : Int, e.date = localtime (86400 * k)) →
      (∀ e ∈ t.expenses, storedOk e = true) →
      (∀ e ∈ (ops.foldl ExpenseTracker.step t).expenses, storedOk e = true) ∧
        t.expenses <+: (ops.foldl ExpenseTracker.step t).expenses := by
  induction ops with
  | nil => intro t _ h; exact ⟨h, List.prefix_refl _⟩
  | cons op rest ih =>
    intro t hm h
    have hstep := step_expenses t op hm
    have hok : ∀ e ∈ (t.step op).expenses, storedOk e = true := by
      rcases hstep with e1 | ⟨x, hx, e1⟩
      · rw [e1]; exact h
      · rw [e1]
        intro e he
        rcases List.mem_append.mp he with h1 | h1
        · exact h e h1
        · rw [List.mem_singleton.mp h1]; exact hx
    have hpre : t.expenses <+: (t.step op).expenses := by
      rcases hstep with e1 | ⟨x, -, e1⟩
      · rw [e1]
      · rw [e1]; exact List.prefix_append _ _
    obtain ⟨r1, r2⟩ := ih (t.step op) (step_midnight t op hm) hok
    exact ⟨r1, hpre.trans r2⟩

/-- In every ledger reached from the empty one, each stored expense has an amount
that is not `<= 0`, a non-empty category and a real date from 1900 on; and further
calls keep the ledger as a prefix: no stored expense is removed or altered. -/
theorem run_invariant (ops more : List Op) :
    (∀ e ∈ (ExpenseTracker.run ops).expenses, storedOk e = true) ∧
      (ExpenseTracker.run ops).expenses <+: (ExpenseTracker.run (ops ++ more)).expenses := by
  have h0 := foldl_step_storedOk ops { expenses := [] } (by intro e he; cases he)
    (by intro e he; cases he)
  refine ⟨h0.1, ?_⟩
  have h1 := foldl_step_storedOk more (ExpenseTracker.run ops) (run_midnight ops) h0.1
  simp only [ExpenseTracker.run, List.foldl_append] at h1 ⊢
  exact h1.2

/-- An amount that is not `<= 0` and is not a NaN is greater than zero. -/
theorem storedOk_valid {e : Expense} (h : storedOk e = true) (hn : e.amount ≠ Double.nan) :
    validExpense e = true := by
  simp only [storedOk, Double.le_zero_iff_not_pos hn, Bool.not_not] at h
  exact h

/-! # The claims -/

/-- Claim C1.  In every tracker reached from the empty one by calls of its member
functions, `filterExpenses` returns exactly the expenses of the ledger, in ledger
order and with multiplicity, that the inclusion rule selects: the date is on or
after the start bound when that bound is non-empty and parseable, on or before the
end bound likewise, and the category matches case-insensitively when a category is
given.  On the three-expense sample ledger the start bound `2025-05-21` leaves the
second and third entries, in that order. -/
theorem filterExpenses_spec (ops : List Op) (startDateStr endDateStr category : String) :
    ((ExpenseTracker.run ops).filterExpenses startDateStr endDateStr category).value
        = (ExpenseTracker.run ops).expenses.filter (selected startDateStr endDateStr category) ∧
    (sampleTracker.filterExpenses "2025-05-21" "" "").value = sampleTracker.expenses.drop 1 ∧
    (sampleTracker.filterExpenses "2025-05-21" "" "").value.map Expense.getFormattedDate
        = [some "2025-05-21", some "2025-05-22"] ∧
    sampleTracker.expenses.map Expense.getFormattedDate
        = [some "2025-05-20", some "2025-05-21", some "2025-05-22"] := by
  refine ⟨(filterExpenses_normal _ _ _ _ (run_midnight ops)).1, by decide, by decide, by decide⟩

/-- Claim C2, at the input where the code departs from it.  A NaN amount is not
greater than zero, yet `addExpense` succeeds on it and stores the expense: the test
`amount <= 0` is false for a NaN. -/
theorem addExpense_accepts_nan :
    (addExpense { expenses := [] } "2025-05-20" Double.nan "Food" "").value = true ∧
      ((addExpense { expenses := [] } "2025-05-20" Double.nan "Food" "").tracker.expenses.map
        (fun e => e.amount)) = [Double.nan] ∧
      Double.lt Double.zero Double.nan = false := by
  decide

/-- Claim C3.  Whenever `addExpense` returns false, the tracker afterwards is the
tracker before: the same expenses in the same order. -/
theorem addExpense_failure_keeps_ledger (t : ExpenseTracker) (dateStr : String)
    (amount : Double) (category description : String)
    (h : (t.addExpense dateStr amount category description).value = false) :
    (t.addExpense dateStr amount category description).tracker = t ∧
      (t.addExpense dateStr amount category description).tracker.getAllExpenses
        = t.getAllExpenses := by
  have key : (t.addExpense dateStr amount category description).tracker = t := by
    revert h
    rw [addExpense_outcome]
    cases parseDate dateStr with
    | none => intro _; rfl
    | some date =>
      simp only
      split_ifs with h1 h2
      · intro _; rfl
      · intro _; rfl
      · intro h; exact h.elim
  exact ⟨key, by rw [key]⟩

/-- Claim C3 at the call `add("2025-05-20", -5, "Food")`, which fails and leaves
the ledger as it was. -/
theorem addExpense_failure_keeps_ledger_witness :
    (addExpense { expenses := [] } "2025-05-20" (Double.ofRatio (-5) 1) "Food" "").tracker
        = { expenses := [] } ∧
      (addExpense { expenses := [] } "2025-05-20" (Double.ofRatio (-5) 1) "Food"
        "").tracker.getAllExpenses = getAllExpenses { expenses := [] } :=
  addExpense_failure_keeps_ledger { expenses := [] } "2025-05-20" (Double.ofRatio (-5) 1) "Food" ""
    (by decide)

/-- Claim C4 as stated fails: `addExpense` accepts the text `2025-5-1`, and the
stored date formats as `2025-05-01`, not as the text given. -/
theorem addExpense_reformats_date_text :
    (addExpense { expenses := [] } "2025-5-1" (Double.ofRatio 10 1) "Food" "").value = true ∧
      (addExpense { expenses := [] } "2025-5-1" (Double.ofRatio 10 1) "Food"
        "").tracker.getAllExpenses.map Expense.getFormattedDate = [some "2025-05-01"] ∧
      (some "2025-05-01" : Option String) ≠ some "2025-5-1" := by
  decide

/-- Claim C4, amended.  Whenever `addExpense` succeeds, the date text parses and
`getAllExpenses` afterwards is the former sequence with one record appended: the
length grows by one, every earlier record keeps its place, and the last record
holds the date `parseDate` returns for the text, the amount, the category and the
description given.  When the date text is the zero-padded `YYYY-MM-DD` form of a
real date with year 1900 to 9999, the stored date formats back to that text.  For
other accepted texts the formatted date need not be the text: `2025-5-1` is accepted
and its date formats as `2025-05-01`. -/
theorem addExpense_success_appends (t : ExpenseTracker) (dateStr : String) (amount : Double)
    (category description : String)
    (h : (t.addExpense dateStr amount category description).value = true) :
    (∃ date, parseDate dateStr = some date ∧
      (t.addExpense dateStr amount category description).tracker.getAllExpenses
        = t.getAllExpenses ++ [Expense.mk date amount category description] ∧
      (t.addExpense dateStr amount category description).tracker.getAllExpenses.length
        = t.getAllExpenses.length + 1 ∧
      (∀ i, i < t.getAllExpenses.length →
        (t.addExpense dateStr amount category description).tracker.getAllExpenses[i]?
          = t.getAllExpenses[i]?) ∧
      (isCanonicalDate dateStr = true →
        (Expense.mk date amount category description).getFormattedDate = some dateStr)) ∧
    isCanonicalDate "2025-5-1" = false ∧
    (t.addExpense "2025-5-1" amount category description).value
      = (t.addExpense "2025-05-01" amount category description).value ∧
    (t.addExpense "2025-5-1" amount category description).tracker
      = (t.addExpense "2025-05-01" amount category description).tracker ∧
    (parseDate "2025-5-1").map (strftime 11) = some (some "2025-05-01") := by
  refine ⟨?_, by decide, ?_, ?_, by decide⟩
  rotate_left
  · have e : parseDate "2025-5-1" = parseDate "2025-05-01" := by decide
    simp only [addExpense, e]
  · have e : parseDate "2025-5-1" = parseDate "2025-05-01" := by decide
    simp only [addExpense, e]
  revert h
  rw [addExpense_outcome]
  cases hp : parseDate dateStr with
  | none => intro h; exact Bool.noConfusion h
  | some date =>
    simp only
    split_ifs with h1 h2
    · intro h; exact h.elim
    · intro h; exact h.elim
    · intro _
      refine ⟨date, rfl, rfl, by simp [getAllExpenses], ?_, ?_⟩
      · intro i hi
        simp only [getAllExpenses] at hi ⊢
        exact List.getElem?_append_left hi
      · intro hc
        obtain ⟨t2, q1, q2, -⟩ := parseDate_canonical hc
        rw [hp] at q1
        cases q1
        exact q2

/-- Claim C4, amended, at the call
`add("2025-05-20", 45.90, "Groceries", "fruits and veggies")` on the empty ledger. -/
theorem addExpense_success_appends_witness :
    (addExpense { expenses := [] } "2025-05-20" (Double.ofRatio 4590 100) "Groceries"
        "fruits and veggies").value = true ∧
    ∃ date, parseDate "2025-05-20" = some date ∧
      (addExpense { expenses := [] } "2025-05-20" (Double.ofRatio 4590 100) "Groceries"
          "fruits and veggies").tracker.getAllExpenses
        = getAllExpenses { expenses := [] } ++
            [Expense.mk date (Double.ofRatio 4590 100) "Groceries" "fruits and veggies"] ∧
      (addExpense { expenses := [] } "2025-05-20" (Double.ofRatio 4590 100) "Groceries"
          "fruits and veggies").tracker.getAllExpenses.length
        = (getAllExpenses { expenses := [] }).length + 1 ∧
      (∀ i, i < (getAllExpenses { expenses := [] }).length →
        (addExpense { expenses := [] } "2025-05-20" (Double.ofRatio 4590 100) "Groceries"
          "fruits and veggies").tracker.getAllExpenses[i]?
          = (getAllExpenses { expenses := [] })[i]?) ∧
      (isCanonicalDate "2025-05-20" = true →
        (Expense.mk date (Double.ofRatio 4590 100) "Groceries"
          "fruits and veggies").getFormattedDate = some "2025-05-20") :=
  ⟨by decide,
    (addExpense_success_appends { expenses := [] } "2025-05-20" (Double.ofRatio 4590 100)
      "Groceries" "fruits and veggies" (by decide)).1⟩

/-- Claim C5.  For every ledger, the map of `getSummary` has an entry `(c, v)`
exactly when some expense has category `c` (compared exactly, case included) and
`v` is the sum, accumulated from `0.0` in ledger order, of the amounts of the
expenses of category `c`; no category has two entries; the total is the sum of all
amounts accumulated in ledger order; the empty ledger gives the empty map and the
total `0.0`. -/
theorem getSummary_spec (t : ExpenseTracker) :
    (∀ c v, (c, v) ∈ t.getSummary.categories ↔
      (∃ e ∈ t.expenses, e.category = c) ∧
        v = sumAmounts (t.expenses.filter (fun e => decide (e.category = c)))) ∧
    (t.getSummary.categories.map Prod.fst).Nodup ∧
    t.getSummary.total = sumAmounts t.expenses ∧
    getSummary { expenses := [] } = { categories := [], total := Double.zero } := by
  have key := summaryLoop_invariant t.expenses [] { categories := [], total := Double.zero }
    List.Pairwise.nil (by intro c v; simp) rfl
  simp only [List.nil_append] at key
  obtain ⟨k1, k2, k3⟩ := key
  refine ⟨k2, ?_, k3, rfl⟩
  rw [List.Nodup, List.pairwise_map]
  refine k1.imp ?_
  intro a b hab heq
  rw [heq] at hab
  exact lt_irrefl _ hab

/-- Claim C6 as stated fails: with `1e16` in category `B` and `1.0` twice in
category `A`, the entries are `2.0` and `1e16`, whose sum in either order is
`10000000000000002`, while the total, accumulated in ledger order, is `1e16`. -/
theorem getSummary_entries_sum_differs :
    unevenTracker.getSummary.categories
        = [("A", Double.ofRatio 2 1), ("B", Double.ofRatio 10000000000000000 1)] ∧
      unevenTracker.getSummary.total = Double.ofRatio 10000000000000000 1 ∧
      sumEntries unevenTracker.getSummary.categories = Double.ofRatio 10000000000000002 1 ∧
      sumEntries unevenTracker.getSummary.categories.reverse
        = Double.ofRatio 10000000000000002 1 ∧
      sumEntries unevenTracker.getSummary.categories ≠ unevenTracker.getSummary.total := by
  decide

/-- Claim C6, amended.  When every amount of the ledger is a non-negative multiple
`n * 2^k` of a common power of two (in units of `2^-1074`, so whole numbers for
`k = 1074`) and the multiples add up to less than `2^53`, then in whatever order
the expenses are inserted the entries of the summary add up to its total, which is
the exact sum.  On the sample ledger the total is `81.40` with the three entries
`25.50`, `45.90` and `10.00`, which add up to the total. -/
theorem getSummary_entries_sum_exact (k : Nat) (hk : k ≤ 2045) (L : List Expense)
    (ns : List Nat)
    (hL : L.map (fun e => e.amount) = ns.map (fun n => Double.fin ((n * 2 ^ k : Nat) : Int)))
    (hsum : ns.sum < 2 ^ 53) :
    (∀ L2 : List Expense, L2.Perm L →
      sumEntries (getSummary { expenses := L2 }).categories
          = (getSummary { expenses := L2 }).total ∧
        (getSummary { expenses := L2 }).total = Double.fin ((ns.sum * 2 ^ k : Nat) : Int)) ∧
    sampleTracker.getSummary =
      { categories := [("Dining Out", Double.ofRatio 2550 100),
                       ("Groceries", Double.ofRatio 4590 100),
                       ("Transportation", Double.ofRatio 1000 100)],
        total := Double.ofRatio 8140 100 } ∧
    sumEntries sampleTracker.getSummary.categories = sampleTracker.getSummary.total := by
  refine ⟨?_, by decide, by decide⟩
  intro L2 hp
  have hp0 : 0 < 2 ^ k := Nat.two_pow_pos k
  have hinv : ∀ n : Nat,
      ((Double.fin ((n * 2 ^ k : Nat) : Int)).units / ((2 ^ k : Nat) : Int)).toNat = n := by
    intro n
    simp only [Double.units]
    rw [← Int.ofNat_ediv, Nat.mul_div_cancel _ hp0]
    rfl
  have hmem : ∀ e ∈ L2, e.amount = Double.fin
      (((e.amount.units / ((2 ^ k : Nat) : Int)).toNat * 2 ^ k : Nat) : Int) := by
    intro e he
    have h1 : e.amount ∈ L.map (fun e => e.amount) :=
      List.mem_map.mpr ⟨e, hp.mem_iff.mp he, rfl⟩
    rw [hL] at h1
    obtain ⟨n, -, hn⟩ := List.mem_map.mp h1
    rw [← hn, hinv]
  have hL2 : L2.map (fun e => e.amount)
      = (L2.map (fun e => (e.amount.units / ((2 ^ k : Nat) : Int)).toNat)).map
          (fun n => Double.fin ((n * 2 ^ k : Nat) : Int)) := by
    rw [List.map_map]
    exact List.map_congr_left hmem
  have hs : (L2.map (fun e => (e.amount.units / ((2 ^ k : Nat) : Int)).toNat)).sum = ns.sum := by
    rw [(hp.map _).sum_eq]
    have : L.map (fun e => (e.amount.units / ((2 ^ k : Nat) : Int)).toNat)
        = (L.map (fun e => e.amount)).map
            (fun d => (d.units / ((2 ^ k : Nat) : Int)).toNat) := by
      rw [List.map_map]; rfl
    rw [this, hL, List.map_map]
    have hid : ((fun d : Double => (d.units / ((2 ^ k : Nat) : Int)).toNat) ∘
        fun n : Nat => Double.fin ((n * 2 ^ k : Nat) : Int)) = id := by
      funext n; exact hinv n
    rw [hid, List.map_id]
  have := getSummary_exact k hk L2 _ hL2 (by rw [hs]; exact hsum)
  rw [hs] at this
  exact this

/-- Claim C6, amended, at a ledger of the whole amounts 3 and 4. -/
theorem getSummary_entries_sum_exact_witness :
    (∀ L2 : List Expense,
      L2.Perm [Expense.mk tm.zero (Double.fin ((3 * 2 ^ 1074 : Nat) : Int)) "A" "",
               Expense.mk tm.zero (Double.fin ((4 * 2 ^ 1074 : Nat) : Int)) "B" ""] →
      sumEntries (getSummary { expenses := L2 }).categories
          = (getSummary { expenses := L2 }).total ∧
        (getSummary { expenses := L2 }).total
          = Double.fin ((([3, 4] : List Nat).sum * 2 ^ 1074 : Nat) : Int)) ∧
    sampleTracker.getSummary =
      { categories := [("Dining Out", Double.ofRatio 2550 100),
                       ("Groceries", Double.ofRatio 4590 100),
                       ("Transportation", Double.ofRatio 1000 100)],
        total := Double.ofRatio 8140 100 } ∧
    sumEntries sampleTracker.getSummary.categories = sampleTracker.getSummary.total :=
  getSummary_entries_sum_exact 1074 (by decide)
    [Expense.mk tm.zero (Double.fin ((3 * 2 ^ 1074 : Nat) : Int)) "A" "",
     Expense.mk tm.zero (Double.fin ((4 * 2 ^ 1074 : Nat) : Int)) "B" ""]
    [3, 4] rfl (by decide)

/-- Claim C7, at the input where the code departs from it.  `parseDate` accepts
`2025-02-30`, whose components are not a real date, and returns 2 March 2025: the
comparison meant to reject it reads the `tm` that `mktime` has already normalised.
`2025-13-01` is rejected by the range check on the month. -/
theorem parseDate_accepts_february_30 :
    (parseDate "2025-02-30").map (fun t => (t.tm_year + 1900, t.tm_mon + 1, t.tm_mday))
        = some (2025, 3, 2) ∧
      realDate 2025 2 30 = false ∧ parseDate "2025-13-01" = none := by
  decide

/-- Claim C8.  For every text of the zero-padded form `YYYY-MM-DD` that denotes a
real Gregorian date with year at least 1900, `parseDate` succeeds and
`getFormattedDate` of an expense holding the parsed date yields the text again. -/
theorem parseDate_roundtrip (s : String) (h : isCanonicalDate s = true) :
    ∃ t, parseDate s = some t ∧
      ∀ (amount : Double) (category description : String),
        (Expense.mk t amount category description).getFormattedDate = some s := by
  obtain ⟨t, h1, h2, -⟩ := parseDate_canonical h
  exact ⟨t, h1, fun _ _ _ => h2⟩

/-- Claim C8 at the text `2025-05-20`. -/
theorem parseDate_roundtrip_witness :
    ∃ t, parseDate "2025-05-20" = some t ∧
      ∀ (amount : Double) (category description : String),
        (Expense.mk t amount category description).getFormattedDate = some "2025-05-20" :=
  parseDate_roundtrip "2025-05-20" (by decide)

/-- Claim C9, at the input where the code departs from it.  The variable
`delimiter` is read twice and tested once, so only the second separator is
checked: `2025/05-20` is accepted and parses like `2025-05-20`, while `2025/05/20`
is rejected. -/
theorem parseDate_ignores_first_separator :
    parseDate "2025/05-20" = parseDate "2025-05-20" ∧ (parseDate "2025/05-20").isSome = true ∧
      parseDate "2025/05/20" = none := by
  decide

/-- Claim C10.  `caseInsensitiveCompare a b` is true exactly when the two strings
have the same length and their characters agree position by position after
`tolower`; strings of different lengths never match.  So the filter text
`groceries` matches the stored category `Groceries`, and `Grocer` matches nothing
on the sample ledger. -/
theorem caseInsensitiveCompare_iff (a b : String) :
    (caseInsensitiveCompare a b = true ↔
      a.length = b.length ∧
        ∀ i, i < a.length → tolower (a.data.getD i default) = tolower (b.data.getD i default)) ∧
    (a.length ≠ b.length → caseInsensitiveCompare a b = false) ∧
    caseInsensitiveCompare "Groceries" "groceries" = true ∧
    caseInsensitiveCompare "Groceries" "Grocer" = false ∧
    (sampleTracker.filterExpenses "" "" "groceries").value = sampleTracker.expenses.take 1 ∧
    (sampleTracker.filterExpenses "" "" "Grocer").value = [] := by
  refine ⟨?_, ?_, by decide, by decide, by decide, by decide⟩
  · unfold caseInsensitiveCompare
    by_cases h : a.length = b.length
    · have hl : a.data.length = b.data.length := h
      have := equalBy_iff (fun x y => tolower x == tolower y) a.data b.data hl
      simp only [h, bne_self_eq_false, Bool.false_eq_true, if_false, this, beq_iff_eq, true_and]
      rw [hl]
      rfl
    · simp [h]
  · intro h
    unfold caseInsensitiveCompare
    simp [h]

/-- Claim C11.  A non-empty bound text that `parseDate` rejects is ignored: with
such a text as the start bound `filterExpenses` returns the sequence it returns
for an empty start bound, whatever the ledger, the end bound and the category,
and with such a text as the end bound the sequence it returns for an empty end
bound.  The call returns normally and leaves the same ledger behind. -/
theorem filterExpenses_ignores_rejected_bound (t : ExpenseTracker)
    (bad other category : String) (hbad : parseDate bad = none) :
    (t.filterExpenses bad other category).value = (t.filterExpenses "" other category).value ∧
    (t.filterExpenses bad other category).tracker
      = (t.filterExpenses "" other category).tracker ∧
    (t.filterExpenses other bad category).value = (t.filterExpenses other "" category).value ∧
    (t.filterExpenses other bad category).tracker
      = (t.filterExpenses other "" category).tracker := by
  have he : ("" : String).isEmpty = true := rfl
  simp only [filterExpenses, hbad, he]
  cases bad.isEmpty <;> simp

theorem filterExpenses_ignores_rejected_bound_witness :
    "not-a-date" ≠ "" ∧ parseDate "not-a-date" = none ∧
    (sampleTracker.filterExpenses "not-a-date" "2025-05-21" "").value
      = (sampleTracker.filterExpenses "" "2025-05-21" "").value ∧
    (sampleTracker.filterExpenses "2025-05-21" "not-a-date" "").value
      = (sampleTracker.filterExpenses "2025-05-21" "" "").value :=
  ⟨by decide, by decide,
    (filterExpenses_ignores_rejected_bound sampleTracker "not-a-date" "2025-05-21" ""
      (by decide)).1,
    (filterExpenses_ignores_rejected_bound sampleTracker "not-a-date" "2025-05-21" ""
      (by decide)).2.2.1⟩

/-- Claim C12, at the input where the code departs from it.  The ledger reached from
the empty one by one call of `addExpense` with a NaN amount stores that expense,
whose amount is not greater than zero: the ledger invariant of the specification
does not hold in it. -/
theorem reachable_ledger_stores_nan :
    nanTracker.expenses.map (fun e => e.amount) = [Double.nan] ∧
    nanTracker.expenses.map (fun e => Double.lt Double.zero e.amount) = [false] ∧
    nanTracker.expenses.all validExpense = false ∧
    nanTracker.getAllExpenses.length = 1 := by
  decide

/-- Claim C13.  For dates `a`, `b`, `c` accepted by `parseDate`, the comparison of
the timestamps that `filterExpenses` obtains from `mktime` agrees with the
lexicographic comparison of (year, month, day): the timestamp of `a` is smaller
iff its triple is lexicographically smaller, not larger iff its triple is not
larger, and the timestamps are equal iff the triples are equal, in which case the
dates are the same.  The order induced on accepted dates is total, antisymmetric
and transitive. -/
theorem timestamp_order_is_calendar_order (sa sb sc : String) (a b c : tm)
    (ha : parseDate sa = some a) (hb : parseDate sb = some b) (hc : parseDate sc = some c) :
    (timestamp a < timestamp b ↔ dateLT a b = true) ∧
    (timestamp a ≤ timestamp b ↔ dateLE a b = true) ∧
    (timestamp a = timestamp b ↔ sameDay a b = true) ∧
    (sameDay a b = true ↔ a = b) ∧
    (dateLE a b = true ∨ dateLE b a = true) ∧
    (dateLE a b = true → dateLE b a = true → sameDay a b = true) ∧
    (dateLE a b = true → dateLE b c = true → dateLE a c = true) := by
  obtain ⟨ka, rfl⟩ := parseDate_midnight ha
  obtain ⟨kb, rfl⟩ := parseDate_midnight hb
  obtain ⟨kc, rfl⟩ := parseDate_midnight hc
  simp only [timestamp_localtime, dateLT_localtime, dateLE_localtime, sameDay_localtime]
  refine ⟨by omega, by omega, by omega, ?_, by omega, by omega, by omega⟩
  constructor
  · intro h; rw [h]
  · intro h
    have := congrArg timestamp h
    simp only [timestamp_localtime] at this
    omega

theorem timestamp_order_is_calendar_order_witness :
    (timestamp (localtime (86400 * 20228)) < timestamp (localtime (86400 * 20229))
      ↔ dateLT (localtime (86400 * 20228)) (localtime (86400 * 20229)) = true) ∧
    parseDate "2025-05-20" = some (localtime (86400 * 20228)) ∧
    parseDate "2025-05-21" = some (localtime (86400 * 20229)) :=
  ⟨(timestamp_order_is_calendar_order "2025-05-20" "2025-05-21" "2025-05-21"
      (localtime (86400 * 20228)) (localtime (86400 * 20229)) (localtime (86400 * 20229))
      (by decide) (by decide) (by decide)).1,
    by decide, by decide⟩

/-- Claim C14.  Grouping in `getSummary` is case-sensitive while matching in
`filterExpenses` is case-insensitive: on the ledger of two valid expenses with
categories `Food` and `food`, the map of `getSummary` has two entries, one per
spelling, while `filterExpenses("", "", "food")` returns both expenses. -/
theorem summary_case_sensitive_filter_insensitive :
    caseTracker.expenses.map (fun e => e.category) = ["Food", "food"] ∧
    caseTracker.getSummary.categories
      = [("Food", Double.ofRatio 10 1), ("food", Double.ofRatio 5 1)] ∧
    caseTracker.getSummary.categories.length = 2 ∧
    (caseTracker.filterExpenses "" "" "food").value = caseTracker.expenses ∧
    (caseTracker.filterExpenses "" "" "food").value.length = 2 := by
  decide

/-- Claim C15.  The diagnostics of `filterExpenses` are exactly the ignored-bound
messages: one for the start bound when the start text is non-empty and `parseDate`
rejects it, then one for the end bound when the end text is non-empty and rejected.
So each message is emitted iff its bound is non-empty and rejected, a call whose
bounds are each empty or parseable emits nothing, and the two messages differ from
each other and from the three failure messages of `addExpense`. -/
theorem filterExpenses_diagnostics (t : ExpenseTracker)
    (startDateStr endDateStr category : String) :
    (t.filterExpenses startDateStr endDateStr category).cerr
      = (if startDateStr ≠ "" ∧ parseDate startDateStr = none then [msgIgnoredStart] else [])
        ++ (if endDateStr ≠ "" ∧ parseDate endDateStr = none then [msgIgnoredEnd] else []) ∧
    (msgIgnoredStart ∈ (t.filterExpenses startDateStr endDateStr category).cerr
      ↔ startDateStr ≠ "" ∧ parseDate startDateStr = none) ∧
    (msgIgnoredEnd ∈ (t.filterExpenses startDateStr endDateStr category).cerr
      ↔ endDateStr ≠ "" ∧ parseDate endDateStr = none) ∧
    (((startDateStr = "" ∨ (parseDate startDateStr).isSome = true) ∧
        (endDateStr = "" ∨ (parseDate endDateStr).isSome = true))
      → (t.filterExpenses startDateStr endDateStr category).cerr = []) ∧
    msgIgnoredStart ≠ msgIgnoredEnd ∧
    msgIgnoredStart ∉ [msgInvalidDate, msgInvalidAmount, msgEmptyCategory] ∧
    msgIgnoredEnd ∉ [msgInvalidDate, msgInvalidAmount, msgEmptyCategory] := by
  have hne : msgIgnoredStart ≠ msgIgnoredEnd := by decide
  have hcerr : (t.filterExpenses startDateStr endDateStr category).cerr
      = (if startDateStr ≠ "" ∧ parseDate startDateStr = none then [msgIgnoredStart] else [])
        ++ (if endDateStr ≠ "" ∧ parseDate endDateStr = none then [msgIgnoredEnd] else []) := by
    have hs : startDateStr.isEmpty = decide (startDateStr = "") := by
      rw [Bool.eq_iff_iff]; simp [String.isEmpty_iff]
    have he : endDateStr.isEmpty = decide (endDateStr = "") := by
      rw [Bool.eq_iff_iff]; simp [String.isEmpty_iff]
    simp only [filterExpenses, hs, he]
    cases parseDate startDateStr <;> cases parseDate endDateStr <;>
      by_cases h1 : startDateStr = "" <;> by_cases h2 : endDateStr = "" <;>
      simp [h1, h2]
  refine ⟨hcerr, ?_, ?_, ?_, hne, by decide, by decide⟩
  · rw [hcerr]
    by_cases h1 : startDateStr ≠ "" ∧ parseDate startDateStr = none <;>
      by_cases h2 : endDateStr ≠ "" ∧ parseDate endDateStr = none <;>
      simp [h1, h2, hne]
  · rw [hcerr]
    by_cases h1 : startDateStr ≠ "" ∧ parseDate startDateStr = none <;>
      by_cases h2 : endDateStr ≠ "" ∧ parseDate endDateStr = none <;>
      simp [h1, h2, hne, Ne.symm hne]
  · rintro ⟨h1, h2⟩
    rw [hcerr]
    have n1 : ¬ (startDateStr ≠ "" ∧ parseDate startDateStr = none) := by
      rintro ⟨a, b⟩
      rcases h1 with h | h
      · exact a h
      · rw [b] at h; cases h
    have n2 : ¬ (endDateStr ≠ "" ∧ parseDate endDateStr = none) := by
      rintro ⟨a, b⟩
      rcases h2 with h | h
      · exact a h
      · rw [b] at h; cases h
    rw [if_neg n1, if_neg n2]
    rfl

theorem filterExpenses_diagnostics_witness :
    (sampleTracker.filterExpenses "2025-05-21" "" "").cerr = [] ∧
    (sampleTracker.filterExpenses "not-a-date" "2025-13-01" "").cerr
      = [msgIgnoredStart, msgIgnoredEnd] :=
  ⟨(filterExpenses_diagnostics sampleTracker "2025-05-21" "" "").2.2.2.1
      ⟨Or.inr (by decide), Or.inl rfl⟩,
    by decide⟩

/-- Claim C16.  `parseDate` ignores what follows the day number: when it accepts
`s`, it accepts `s ++ t` for every text `t` that is empty or starts with a character
other than a decimal digit, and returns the same date. -/
theorem parseDate_ignores_suffix (s t : String) (d : tm) (h : parseDate s = some d)
    (ht : ∀ c r, t.data = c :: r → isdigit c = false) :
    parseDate (s ++ t) = some d := by
  obtain ⟨year, month, day, c1, s1, s2, s3, s4, s5, h1, h2, h3, h4, h5, hy, hm0, hm1, hd0, hd1,
    rfl⟩ := parseDate_eq_some h
  have e : (s ++ t).data = s.data ++ t.data := String.data_append s t
  have k1 : extractInt (s ++ t).data = some (year, s1 ++ t.data) := by
    rw [e]
    exact extractInt_append t.data h1 (Or.inl (extractChar_rest_ne_nil h2))
  have k2 := extractChar_append t.data h2
  have k3 := extractInt_append t.data h3 (Or.inl (extractChar_rest_ne_nil h4))
  have k4 := extractChar_append t.data h4
  have k5 := extractInt_append t.data h5 (Or.inr ht)
  exact parseDate_eq_of_extract k1 k2 k3 k4 k5 hy hm0 hm1 hd0 hd1

theorem parseDate_ignores_suffix_witness :
    parseDate "2025-05-20" = some (localtime (86400 * 20228)) ∧
    parseDate ("2025-05-20" ++ "abc") = some (localtime (86400 * 20228)) ∧
    parseDate ("2025-05-20" ++ " 12:00") = some (localtime (86400 * 20228)) :=
  ⟨by decide,
    parseDate_ignores_suffix "2025-05-20" "abc" _ (by decide)
      (by intro c r hcr; cases hcr; decide),
    parseDate_ignores_suffix "2025-05-20" " 12:00" _ (by decide)
      (by intro c r hcr; cases hcr; decide)⟩

/-- Claim C17.  Narrowing the date range only removes results.  On every tracker
reached from the empty one, for parseable bounds with the start `s1` not after `s2`
and the end `e2` not after `e1` in calendar order, the sequence returned for
`(s2, e2, category)` is a sublist (same relative order) of the sequence returned
for `(s1, e1, category)`; and for parseable bounds whose start is strictly later
than the end the sequence returned is empty. -/
theorem filterExpenses_narrowing (ops : List Op) (s1 e1 s2 e2 category : String)
    (ds1 de1 ds2 de2 : tm)
    (hs1 : parseDate s1 = some ds1) (he1 : parseDate e1 = some de1)
    (hs2 : parseDate s2 = some ds2) (he2 : parseDate e2 = some de2)
    (hs : dateLE ds1 ds2 = true) (he : dateLE de2 de1 = true) :
    List.Sublist ((ExpenseTracker.run ops).filterExpenses s2 e2 category).value
      ((ExpenseTracker.run ops).filterExpenses s1 e1 category).value ∧
    (dateLT de1 ds1 = true →
      ((ExpenseTracker.run ops).filterExpenses s1 e1 category).value = []) ∧
    (dateLT de2 ds2 = true →
      ((ExpenseTracker.run ops).filterExpenses s2 e2 category).value = []) := by
  have hm := run_midnight ops
  rw [(filterExpenses_normal _ s1 e1 category hm).1, (filterExpenses_normal _ s2 e2 category hm).1]
  obtain ⟨a1, rfl⟩ := parseDate_midnight hs1
  obtain ⟨b1, rfl⟩ := parseDate_midnight he1
  obtain ⟨a2, rfl⟩ := parseDate_midnight hs2
  obtain ⟨b2, rfl⟩ := parseDate_midnight he2
  rw [dateLE_localtime] at hs he
  simp only [dateLT_localtime]
  refine ⟨?_, ?_, ?_⟩
  · have hcongr : (ExpenseTracker.run ops).expenses.filter (selected s2 e2 category)
        = ((ExpenseTracker.run ops).expenses.filter (selected s1 e1 category)).filter
            (selected s2 e2 category) := by
      rw [List.filter_filter]
      apply List.filter_congr
      intro x hx
      obtain ⟨kx, hkx⟩ := hm x hx
      have h1 := selected_of_parse category hs1 he1 x kx hkx
      have h2 := selected_of_parse category hs2 he2 x kx hkx
      rw [Bool.eq_iff_iff, Bool.and_eq_true, h1, h2]
      constructor
      · rintro ⟨⟨p, q⟩, r⟩
        exact ⟨⟨⟨p, q⟩, r⟩, ⟨by omega, by omega⟩, r⟩
      · rintro ⟨h, -⟩
        exact h
    rw [hcongr]
    exact List.filter_sublist _
  · intro hlt
    rw [List.filter_eq_nil_iff]
    intro x hx
    obtain ⟨kx, hkx⟩ := hm x hx
    rw [selected_of_parse category hs1 he1 x kx hkx]
    omega
  · intro hlt
    rw [List.filter_eq_nil_iff]
    intro x hx
    obtain ⟨kx, hkx⟩ := hm x hx
    rw [selected_of_parse category hs2 he2 x kx hkx]
    omega

theorem filterExpenses_narrowing_witness :
    List.Sublist (sampleTracker.filterExpenses "2025-05-21" "2025-05-21" "").value
      (sampleTracker.filterExpenses "2025-05-20" "2025-05-22" "").value ∧
    (sampleTracker.filterExpenses "2025-05-21" "2025-05-21" "").value.length = 1 ∧
    (sampleTracker.filterExpenses "2025-05-20" "2025-05-22" "").value.length = 3 :=
  ⟨(filterExpenses_narrowing
      [Op.add "2025-05-20" (Double.ofRatio 4590 100) "Groceries" "fruits and veggies",
       Op.add "2025-05-21" (Double.ofRatio 1000 100) "Transportation" "Bus fare",
       Op.add "2025-05-22" (Double.ofRatio 2550 100) "Dining Out" "Lunch with friends"]
      "2025-05-20" "2025-05-22" "2025-05-21" "2025-05-21" ""
      (localtime (86400 * 20228)) (localtime (86400 * 20230))
      (localtime (86400 * 20229)) (localtime (86400 * 20229))
      (by decide) (by decide) (by decide) (by decide) (by decide) (by decide)).1,
    by decide, by decide⟩

/-- Claim C18.  `caseInsensitiveCompare` is an equivalence relation on strings:
every string matches itself, `a` matches `b` iff `b` matches `a`, and matching is
transitive.  Hence two category texts that match each other select the same
expenses: `filterExpenses` returns the same sequence for both, on every ledger
and for all bounds. -/
theorem caseInsensitiveCompare_equivalence :
    (∀ a : String, caseInsensitiveCompare a a = true) ∧
    (∀ a b : String, caseInsensitiveCompare a b = true ↔ caseInsensitiveCompare b a = true) ∧
    (∀ a b c : String, caseInsensitiveCompare a b = true → caseInsensitiveCompare b c = true →
      caseInsensitiveCompare a c = true) ∧
    (∀ (t : ExpenseTracker) (startDateStr endDateStr c1 c2 : String),
      caseInsensitiveCompare c1 c2 = true →
        (t.filterExpenses startDateStr endDateStr c1).value
          = (t.filterExpenses startDateStr endDateStr c2).value) := by
  refine ⟨caseInsensitiveCompare_refl,
    fun a b => ⟨caseInsensitiveCompare_symm, caseInsensitiveCompare_symm⟩,
    fun a b c => caseInsensitiveCompare_trans, ?_⟩
  intro t startDateStr endDateStr c1 c2 h
  simp only [filterExpenses, filterLoop_congr_category _ _ h]

theorem caseInsensitiveCompare_equivalence_witness :
    caseInsensitiveCompare "Food" "FOOD" = true ∧
    (caseTracker.filterExpenses "" "" "Food").value
      = (caseTracker.filterExpenses "" "" "FOOD").value ∧
    caseInsensitiveCompare "food" "FOOD" = true :=
  ⟨by decide,
    caseInsensitiveCompare_equivalence.2.2.2 caseTracker "" "" "Food" "FOOD" (by decide),
    caseInsensitiveCompare_equivalence.2.2.1 "food" "Food" "FOOD" (by decide) (by decide)⟩
